import Mathlib

/-!
# Verification of a desktop-launcher duplicate cleaner

A shallow embedding of the core of `fedora_desktop_cleaner/cleaner.py`
(class `DesktopDuplicateCleaner`), together with proofs about the claims
of its design specification.

Python strings are modelled as `List Char` (`Str`).  Filesystem effects
are modelled as explicit lists of operations (`FsOp`); fallible
operations take success oracles (`Bool`-valued functions) and return
`Except`-style outcomes where the code raises typed exceptions.
-/

set_option maxHeartbeats 1600000

/-- Python strings are sequences of characters. -/
abbrev Str := List Char

/-! ## Basic string operations (models of Python `str` methods) -/

/-- Lexicographic comparison of strings by code point, the order used by
Python's `<=` on `str`.  A proper prefix compares smaller. -/
def lexLe : Str → Str → Bool
  | [], _ => true
  | _ :: _, [] => false
  | a :: as, b :: bs => if a < b then true else if b < a then false else lexLe as bs

/-- Whitespace characters stripped by Python's `str.strip()` (ASCII part). -/
def isSpaceChar (c : Char) : Bool :=
  c = ' ' || c = '\t' || c = '\n' || c = '\r' || c = '\x0b' || c = '\x0c'

/-- Model of Python `str.strip()`. -/
def stripStr (s : Str) : Str :=
  ((s.dropWhile isSpaceChar).reverse.dropWhile isSpaceChar).reverse

/-- Model of Python `pat in s` (substring containment). -/
def containsSub (pat : Str) : Str → Bool
  | [] => pat.isEmpty
  | c :: cs => pat.isPrefixOf (c :: cs) || containsSub pat cs

/-- Model of Python `s.split(c)` for a one-character separator: always
returns at least one (possibly empty) piece. -/
def splitOnChar (c : Char) : Str → List Str
  | [] => [[]]
  | x :: xs =>
    match splitOnChar c xs with
    | [] => [[x]]
    | y :: ys => if x = c then [] :: y :: ys else (x :: y) :: ys

/-- Model of Python `c.join(pieces)` for a one-character separator. -/
def intercalateChar (c : Char) : List Str → Str
  | [] => []
  | [x] => x
  | x :: y :: ys => x ++ c :: intercalateChar c (y :: ys)

/-- Model of Python `s.split(sep, 1)[0] / [1]` for separator `=`: the part
before the first `=` and the part after it (the second component is `[]`
when the string has no `=`; the callers only use it under that guard). -/
def splitEqOnce : Str → Str × Str
  | [] => ([], [])
  | c :: cs =>
    if c = '=' then ([], cs)
    else ((c :: (splitEqOnce cs).1), (splitEqOnce cs).2)

/-- Model of Python `s.endswith(c)` for a single character. -/
def endsWithChar (c : Char) (s : Str) : Bool := s.getLast? = some c

/-- The semicolon-separated entry list denoted by an association value:
its pieces split on `;`, without the empty piece contributed by a single
trailing separator. -/
def parseList (v : Str) : List Str :=
  let l := splitOnChar ';' v
  if l.getLast? = some [] then l.dropLast else l

/-- Model of Python `str.lower()` (ASCII case folding). -/
def lowerStr (s : Str) : Str := s.map Char.toLower

/-! ## Data model -/

/-- The two configured launcher roots (`self.system_apps_dir` and
`self.user_apps_dir` as path strings). -/
structure Roots where
  systemRoot : Str
  userRoot : Str

/-- `str(f).startswith(str(self.user_apps_dir))`. -/
def isUserPath (R : Roots) (p : Str) : Bool := R.userRoot.isPrefixOf p

/-- `str(f).startswith(str(self.system_apps_dir))`. -/
def isSystemPath (R : Roots) (p : Str) : Bool := R.systemRoot.isPrefixOf p

/-- `root / name` in `pathlib`: join with a `/` separator. -/
def childPath (root : Str) (name : Str) : Str := root ++ '/' :: name

/-- `p.name` in `pathlib`: the final path component. -/
def fileName (p : Str) : Str := (splitOnChar '/' p).getLastD []

/-- A filesystem mutation performed by the core. `write` covers both file
creation and overwriting; `delete` is `Path.unlink`; `deleteTree` is
`shutil.rmtree`. -/
inductive FsOp where
  | write (path : Str) (content : Str)
  | delete (path : Str)
  | deleteTree (path : Str)
deriving DecidableEq

/-- The path a filesystem operation acts on. -/
def FsOp.target : FsOp → Str
  | .write p _ => p
  | .delete p => p
  | .deleteTree p => p

/-- The run statistics dictionary `self.stats`. -/
structure Stats where
  wineFilesRemoved : Nat
  duplicatesHidden : Nat
  mimeDuplicatesCleaned : Nat
  backupsCreated : Nat
deriving DecidableEq

/-! ## Launcher record extractor (`parse_desktop_file`) -/

/-- The information dictionary built by `parse_desktop_file`: each field
is absent until a matching line assigns it. -/
structure DesktopInfo where
  name : Option Str
  noDisplay : Option Bool
  entryType : Option Str
deriving DecidableEq

/-- The empty information dictionary. -/
def DesktopInfo.empty : DesktopInfo := ⟨none, none, none⟩

/-- One iteration of the parsing loop of `parse_desktop_file`: strip the
line, then the `if`/`elif` chain on the recognized key prefixes.  Each
assignment overwrites the field. -/
def parseLine (info : DesktopInfo) (rawLine : Str) : DesktopInfo :=
  let line := stripStr rawLine
  if "Name=".toList.isPrefixOf line then
    { info with name := some (splitEqOnce line).2 }
  else if "NoDisplay=".toList.isPrefixOf line then
    { info with noDisplay := some (lowerStr (splitEqOnce line).2 = "true".toList) }
  else if "Type=".toList.isPrefixOf line then
    { info with entryType := some (splitEqOnce line).2 }
  else info

/-- `parse_desktop_file` over a list of raw lines. -/
def parseLines (lines : List Str) : DesktopInfo :=
  lines.foldl parseLine DesktopInfo.empty

/-- `parse_desktop_file` over whole file content: iterate over its lines. -/
def parseDesktopFile (content : Str) : DesktopInfo :=
  parseLines (splitOnChar '\n' content)

/-! ## Compatibility-layer purge (`remove_wine_files`) -/

/-- A glob pattern of the shape `pre*suf`: matches `s` iff
`s = pre ++ mid ++ suf` for some `mid`. -/
def globMatch (pre suf : Str) (s : Str) : Bool :=
  pre.isPrefixOf s && suf.isSuffixOf (s.drop pre.length)

/-- A directory entry matched by `glob("backup_*")`: its name, whether it
is a directory, and the filenames it contains. -/
structure BackupEntry where
  name : Str
  isDir : Bool
  contents : List Str
deriving DecidableEq

/-- The part of the filesystem state consulted by `remove_wine_files`:
the filenames in the user applications directory, the `backup_*` glob
results, and success oracles for `unlink` and `rmtree`. -/
structure WineEnv where
  files : List Str
  backups : List BackupEntry
  unlinkOk : Str → Bool
  rmtreeOk : Str → Bool

/-- Per-file body of the purge loop: in dry-run count unconditionally;
otherwise attempt the deletion, count it only on success, and continue
either way. -/
def wineFileStep (R : Roots) (dryRun : Bool) (e : WineEnv)
    (acc : Nat × List FsOp) (f : Str) : Nat × List FsOp :=
  if dryRun then (acc.1 + 1, acc.2)
  else if e.unlinkOk f then (acc.1 + 1, acc.2 ++ [FsOp.delete (childPath R.userRoot f)])
  else acc

/-- Per-directory body of the backup-directory loop of
`remove_wine_files`. -/
def wineDirStep (R : Roots) (dryRun : Bool) (e : WineEnv)
    (acc : Nat × List FsOp) (b : BackupEntry) : Nat × List FsOp :=
  if b.isDir then
    let wins := b.contents.filter (globMatch "wine-".toList ".desktop".toList)
    if wins.isEmpty then acc
    else if dryRun then (acc.1 + wins.length, acc.2)
    else if e.rmtreeOk b.name then
      (acc.1 + wins.length, acc.2 ++ [FsOp.deleteTree (childPath R.userRoot b.name)])
    else acc
  else acc

/-- `remove_wine_files`: purge the two wine glob patterns, then the
`backup_*` directories containing wine files; return the removed count
and the filesystem operations actually performed. -/
def removeWineFiles (R : Roots) (dryRun : Bool) (e : WineEnv) : Nat × List FsOp :=
  let acc1 := (e.files.filter (globMatch "wine-extension-".toList ".desktop".toList)).foldl
    (wineFileStep R dryRun e) (0, [])
  let acc2 := (e.files.filter (globMatch "wine-protocol-".toList ".desktop".toList)).foldl
    (wineFileStep R dryRun e) acc1
  ((e.backups.filter (fun b => globMatch "backup_".toList [] b.name)).foldl
    (wineDirStep R dryRun e) acc2)

/-- The operations the purge performs for one candidate file: its
deletion when `unlink` succeeds, nothing otherwise. -/
def wineFileOp (R : Roots) (e : WineEnv) (f : Str) : List FsOp :=
  if e.unlinkOk f then [FsOp.delete (childPath R.userRoot f)] else []

/-- Whether the purge removes a `backup_*` glob entry: it is a directory,
contains at least one `wine-*.desktop` file, and `rmtree` succeeds. -/
def wineDirRemoved (e : WineEnv) (b : BackupEntry) : Bool :=
  b.isDir &&
    !(b.contents.filter (globMatch "wine-".toList ".desktop".toList)).isEmpty &&
    e.rmtreeOk b.name

/-- The operations the purge performs for one `backup_*` glob entry. -/
def wineDirOp (R : Roots) (e : WineEnv) (b : BackupEntry) : List FsOp :=
  if wineDirRemoved e b then [FsOp.deleteTree (childPath R.userRoot b.name)] else []

/-- The removed-files count as the specification words it: the
successfully deleted files matching either wine pattern, plus, per
successfully removed backup directory, the number of `wine-*.desktop`
files it contained. -/
def wineCountSpec (e : WineEnv) : Nat :=
  ((e.files.filter (globMatch "wine-extension-".toList ".desktop".toList)).filter
    e.unlinkOk).length +
  ((e.files.filter (globMatch "wine-protocol-".toList ".desktop".toList)).filter
    e.unlinkOk).length +
  (((e.backups.filter (fun b => globMatch "backup_".toList [] b.name)).filter
      (wineDirRemoved e)).map
    (fun b => (b.contents.filter (globMatch "wine-".toList ".desktop".toList)).length)).sum

/-! ## Duplicate resolver (`hide_duplicate_applications` and helpers) -/

/-- The sort order of the resolver: ascending on the key
`(str(f).startswith(user_apps_dir), str(f))`. -/
def keyLe (R : Roots) (p q : Str) : Bool :=
  if isUserPath R p = isUserPath R q then lexLe p q
  else isUserPath R q

/-- `keyLe` as a relation, for use with `List.insertionSort`. -/
def resolverLe (R : Roots) (p q : Str) : Prop := keyLe R p q = true

instance (R : Roots) : DecidableRel (resolverLe R) :=
  fun p q => inferInstanceAs (Decidable (keyLe R p q = true))

/-- `sorted(files, key=lambda f: (startswith-user, str(f)))`: a stable
sort by `keyLe` (Python's `sorted` is stable; insertion sort is too). -/
def sortFiles (R : Roots) (files : List Str) : List Str :=
  List.insertionSort (resolverLe R) files

/-- The stub written by `_create_hide_override`:
`"[Desktop Entry]\nType=Application\nName={app_name}\nNoDisplay=true\n"`. -/
def overrideContent (appName : Str) : Str :=
  "[Desktop Entry]\nType=Application\nName=".toList ++ appName ++ "\nNoDisplay=true\n".toList

/-- Model of Python `f.readlines()` applied to `content`: split after
every newline, keeping the line terminators (`str.splitlines` with
keepends, specialized to `\n`). -/
def readLines : Str → List Str
  | [] => []
  | c :: cs =>
    match readLines cs with
    | [] => [[c]]
    | l :: ls => if c = '\n' then ['\n'] :: l :: ls else (c :: l) :: ls

/-- The filter step of `_add_no_display`: drop every line whose stripped
form starts with `NoDisplay=`. -/
def stripNoDisplayLines (lines : List Str) : List Str :=
  lines.filter (fun l => !("NoDisplay=".toList.isPrefixOf (stripStr l)))

/-- The insertion loop of `_add_no_display`: append each line, and after
the first line whose stripped form equals `[Desktop Entry]` insert
`NoDisplay=true`; if no such line occurs, append the section header and
the flag at the end. -/
def addNoDisplayLoop : List Str → List Str
  | [] => ["[Desktop Entry]\n".toList, "NoDisplay=true\n".toList]
  | l :: ls =>
    if stripStr l = "[Desktop Entry]".toList then l :: "NoDisplay=true\n".toList :: ls
    else l :: addNoDisplayLoop ls

/-- `_add_no_display` at the line level: filter out old `NoDisplay=`
lines, then insert the flag. -/
def addNoDisplayLines (lines : List Str) : List Str :=
  addNoDisplayLoop (stripNoDisplayLines lines)

/-- `_add_no_display` at the content level: `readlines`, transform,
`writelines` (concatenation). -/
def addNoDisplayContent (content : Str) : Str :=
  (addNoDisplayLines (readLines content)).flatten

/-- Suppression of one non-survivor record (the body of the inner loop of
`hide_duplicate_applications`): system-role records get a local override
stub, user-role records are rewritten in place, records under neither
root fall through both branches.  `writeOk` is the success oracle for the
write performed by either branch (a failure is caught and the counter is
not incremented); `fs` gives the current content of user files. -/
def hideOne (R : Roots) (dryRun : Bool) (writeOk : Str → Bool) (fs : Str → Str)
    (appName : Str) (p : Str) : Nat × List FsOp :=
  if isSystemPath R p then
    if dryRun then (1, [])
    else if writeOk (childPath R.userRoot (fileName p)) then
      (1, [FsOp.write (childPath R.userRoot (fileName p)) (overrideContent appName)])
    else (0, [])
  else if isUserPath R p then
    if dryRun then (1, [])
    else if writeOk p then (1, [FsOp.write p (addNoDisplayContent (fs p))])
    else (0, [])
  else (0, [])

/-- One duplicate group of `hide_duplicate_applications`: sort, keep the
head visible, suppress the tail. -/
def hideGroup (R : Roots) (dryRun : Bool) (writeOk : Str → Bool) (fs : Str → Str)
    (appName : Str) (files : List Str) : Nat × List FsOp :=
  ((sortFiles R files).tail).foldl
    (fun acc p =>
      (acc.1 + (hideOne R dryRun writeOk fs appName p).1,
       acc.2 ++ (hideOne R dryRun writeOk fs appName p).2))
    (0, [])

/-- `hide_duplicate_applications` over the whole duplicates dictionary. -/
def hideDuplicateApplications (R : Roots) (dryRun : Bool) (writeOk : Str → Bool)
    (fs : Str → Str) (groups : List (Str × List Str)) : Nat × List FsOp :=
  groups.foldl
    (fun acc g =>
      (acc.1 + (hideGroup R dryRun writeOk fs g.1 g.2).1,
       acc.2 ++ (hideGroup R dryRun writeOk fs g.1 g.2).2))
    (0, [])

/-! ## Association-list deduplicator (`_clean_mime_file` and caller) -/

/-- The deduplication loop over the `;`-split application list:
`if app and app not in seen` keeps non-empty first occurrences. -/
def dedupAppsAux (seen : List Str) : List Str → List Str
  | [] => []
  | app :: rest =>
    if !app.isEmpty && !seen.contains app then app :: dedupAppsAux (app :: seen) rest
    else dedupAppsAux seen rest

/-- The deduplicated application list (`unique_apps`). -/
def dedupApps (apps : List Str) : List Str := dedupAppsAux [] apps

/-- Cleaning of the value part of one association line: split on `;`,
deduplicate, rejoin, and restore a single trailing `;` when non-empty. -/
def cleanValue (value : Str) : Str :=
  let cleanedValue := intercalateChar ';' (dedupApps (splitOnChar ';' value))
  if !cleanedValue.isEmpty && !endsWithChar ';' cleanedValue then cleanedValue ++ [';']
  else cleanedValue

/-- Cleaning of one line of an association file: association lines (those
containing `=` and `.desktop`) are rebuilt from the cleaned value; every
other line passes through unchanged. -/
def cleanMimeLine (line : Str) : Str :=
  if line.contains '=' && containsSub ".desktop".toList line then
    (splitEqOnce line).1 ++ '=' :: cleanValue (splitEqOnce line).2
  else line

/-- The content transformation of `_clean_mime_file`: split on newlines,
clean each line, rejoin. -/
def cleanMimeContent (content : Str) : Str :=
  intercalateChar '\n' ((splitOnChar '\n' content).map cleanMimeLine)

/-- The typed error taxonomy of the association deduplicator: every
`OSError` in `_clean_mime_file` is re-raised as a `BackupError` (a
`CleanerError` subclass). -/
inductive CleanerErr where
  | backupFailure
deriving DecidableEq

/-- The observable state of one association file: its content and the
success oracles of the backup copy, the read, and the rewrite. -/
structure MimeFileEnv where
  content : Str
  backupOk : Bool
  readOk : Bool
  writeOk : Bool
deriving DecidableEq

/-- `Path.with_suffix(".list.bak")` in reverse: drop up to the final
component's last `.`, if any. -/
def dropExtAux (orig : Str) : Str → Str
  | [] => orig
  | c :: cs => if c = '.' then cs else if c = '/' then orig else dropExtAux orig cs

/-- `mime_file.with_suffix(".list.bak")`: replace the last extension of
the final path component (append when there is none). -/
def withSuffixListBak (p : Str) : Str :=
  (dropExtAux p.reverse p.reverse).reverse ++ ".list.bak".toList

/-- `_clean_mime_file` for one file: backup (unless dry-run), read,
clean, rewrite (unless dry-run).  Returns the increment of
`backups_created` (which persists even when a later step fails, since the
counter is mutated before the failure), the operations performed, and the
outcome — any `OSError` surfaces as a `BackupError`. -/
def cleanMimeFileM (dryRun : Bool) (path : Str) (e : MimeFileEnv) :
    Nat × List FsOp × Except CleanerErr Bool :=
  if dryRun then
    if e.readOk then (0, [], Except.ok true) else (0, [], Except.error CleanerErr.backupFailure)
  else if e.backupOk then
    if e.readOk then
      if e.writeOk then
        (1, [FsOp.write (withSuffixListBak path) e.content,
             FsOp.write path (cleanMimeContent e.content)], Except.ok true)
      else (1, [FsOp.write (withSuffixListBak path) e.content],
            Except.error CleanerErr.backupFailure)
    else (1, [FsOp.write (withSuffixListBak path) e.content],
          Except.error CleanerErr.backupFailure)
  else (0, [], Except.error CleanerErr.backupFailure)

/-- Body of the loop of `clean_mime_duplicates`: a missing file is
skipped; an exception from `_clean_mime_file` is logged and the loop
continues; on success `cleaned_count` is incremented.  The accumulator is
`(cleaned_count, backups_created, operations)`. -/
def mimeFileStep (dryRun : Bool) (acc : Nat × Nat × List FsOp)
    (pf : Str × Option MimeFileEnv) : Nat × Nat × List FsOp :=
  match pf.2 with
  | none => acc
  | some e =>
    let r := cleanMimeFileM dryRun pf.1 e
    match r.2.2 with
    | Except.ok _ => (acc.1 + 1, acc.2.1 + r.1, acc.2.2 ++ r.2.1)
    | Except.error _ => (acc.1, acc.2.1 + r.1, acc.2.2 ++ r.2.1)

/-- `clean_mime_duplicates`: process the user association file then the
config association file. -/
def cleanMimeDuplicates (dryRun : Bool) (userPath configPath : Str)
    (u c : Option MimeFileEnv) : Nat × Nat × List FsOp :=
  [(userPath, u), (configPath, c)].foldl (mimeFileStep dryRun) (0, 0, [])

/-! ## Orchestrator (`run`) -/

/-- The initial state consulted by one orchestrated run: the launcher
roots, the purge environment, the duplicates dictionary handed to the
resolver, the user-file contents and the resolver's write oracle, and the
two association files with their paths. -/
structure RunEnv where
  roots : Roots
  wine : WineEnv
  groups : List (Str × List Str)
  fs : Str → Str
  hideOk : Str → Bool
  mimeUserPath : Str
  mimeConfigPath : Str
  mimeUser : Option MimeFileEnv
  mimeConfig : Option MimeFileEnv

/-- `run`: purge, resolve, deduplicate associations; return the final
statistics and every filesystem operation performed.  (The cache refresh
spawns external processes and performs no core filesystem operation.) -/
def runModel (dryRun : Bool) (env : RunEnv) : Stats × List FsOp :=
  let w := removeWineFiles env.roots dryRun env.wine
  let h := hideDuplicateApplications env.roots dryRun env.hideOk env.fs env.groups
  let m := cleanMimeDuplicates dryRun env.mimeUserPath env.mimeConfigPath
    env.mimeUser env.mimeConfig
  (⟨w.1, h.1, m.1, m.2.1⟩, w.2 ++ h.2 ++ m.2.2)

/-! ## Spec-side definitions used to state the claims -/

/-- The value a line contributes to the `name` field of the extractor,
if any. -/
def nameOfLine (rawLine : Str) : Option Str :=
  if "Name=".toList.isPrefixOf (stripStr rawLine) then
    some (splitEqOnce (stripStr rawLine)).2
  else none

/-- The value a line contributes to the `no_display` field of the
extractor, if any. -/
def noDisplayOfLine (rawLine : Str) : Option Bool :=
  if "NoDisplay=".toList.isPrefixOf (stripStr rawLine) then
    some (lowerStr (splitEqOnce (stripStr rawLine)).2 = "true".toList)
  else none

/-- The value a line contributes to the `type` field of the extractor,
if any. -/
def typeOfLine (rawLine : Str) : Option Str :=
  if "Type=".toList.isPrefixOf (stripStr rawLine) then
    some (splitEqOnce (stripStr rawLine)).2
  else none

/-- Order-preserving deduplication as the specification words it: keep
the first occurrence of each non-empty entry. -/
def keepFirsts (entries : List Str) : List Str :=
  entries.foldl (fun acc a => if a ≠ [] ∧ a ∉ acc then acc ++ [a] else acc) []

/-- Whether a line is not a `[Desktop Entry]` section header (stripped
comparison). -/
def notHeaderLine (l : Str) : Bool := !decide (stripStr l = "[Desktop Entry]".toList)

/-- Insertion of the flag as the specification words it: right after the
first line whose stripped form equals `[Desktop Entry]` when one exists,
else the header and the flag are appended at the end. -/
def insertFlagSpec (ls : List Str) : List Str :=
  match ls.dropWhile notHeaderLine with
  | [] => ls ++ ["[Desktop Entry]\n".toList, "NoDisplay=true\n".toList]
  | hdrLine :: rest =>
    ls.takeWhile notHeaderLine ++ hdrLine :: "NoDisplay=true\n".toList :: rest

/-- See `insertFlagSpec`: the whole suppression transformation as worded
by the (amended) specification. -/
def addNoDisplaySpec (lines : List Str) : List Str :=
  insertFlagSpec (stripNoDisplayLines lines)

/-- All fallible operations on one association file succeed. -/
def MimeFileEnv.allOk (e : MimeFileEnv) : Prop :=
  e.backupOk = true ∧ e.readOk = true ∧ e.writeOk = true

/-- No individual filesystem operation of the run fails. -/
def RunEnv.allOk (env : RunEnv) : Prop :=
  (∀ f, env.wine.unlinkOk f = true) ∧ (∀ d, env.wine.rmtreeOk d = true) ∧
  (∀ p, env.hideOk p = true) ∧
  (∀ e, env.mimeUser = some e → e.allOk) ∧
  (∀ e, env.mimeConfig = some e → e.allOk)

/-- The launcher roots of the standard configuration, used by concrete
test inputs. -/
def stdRoots : Roots :=
  ⟨"/usr/share/applications".toList, "/home/u/.local/share/applications".toList⟩

/-- An existing, empty association file on which every operation
succeeds. -/
def mimeEnvOkEmpty : MimeFileEnv := ⟨[], true, true, true⟩

/-- A concrete initial state with one existing association file and no
failing operation: the input refuting the dry-run counter claim. -/
def envC7 : RunEnv :=
  ⟨stdRoots, ⟨[], [], fun _ => true, fun _ => true⟩, [], fun _ => [], fun _ => true,
   "/home/u/.local/share/applications/mimeapps.list".toList,
   "/home/u/.config/mimeapps.list".toList,
   some mimeEnvOkEmpty, none⟩

/-- A concrete duplicate group: one user-role file and two system-role
files sharing a display name. -/
def demoFiles : List Str :=
  ["/home/u/.local/share/applications/a.desktop".toList,
   "/usr/share/applications/z.desktop".toList,
   "/usr/share/applications/b.desktop".toList]

/-- A concrete duplicate group whose non-survivor lies under neither
configured root. -/
def demoNeitherFiles : List Str :=
  ["/usr/share/applications/a.desktop".toList, "/var/apps/foo.desktop".toList]

/-- A concrete initial state exercising every stage: a wine file, a
duplicate group with a system-role copy, and one association file. -/
def envC3 : RunEnv :=
  ⟨stdRoots,
   ⟨["wine-extension-foo.desktop".toList], [], fun _ => true, fun _ => true⟩,
   [("App".toList, ["/usr/share/applications/app.desktop".toList,
                    "/home/u/.local/share/applications/app.desktop".toList])],
   fun _ => [], fun _ => true,
   "/home/u/.local/share/applications/mimeapps.list".toList,
   "/home/u/.config/mimeapps.list".toList,
   some mimeEnvOkEmpty, none⟩

/-! ## Lemmas: splitting and joining -/

theorem splitOnChar_ne_nil (c : Char) (s : Str) : splitOnChar c s ≠ [] := by
  cases s with
  | nil => simp [splitOnChar]
  | cons x xs =>
    simp only [splitOnChar]
    split
    · simp
    · split <;> simp

theorem not_mem_of_mem_splitOnChar (c : Char) (s : Str) :
    ∀ x ∈ splitOnChar c s, c ∉ x := by
  induction s with
  | nil => simp [splitOnChar]
  | cons a as ih =>
    intro x hx
    simp only [splitOnChar] at hx
    cases h : splitOnChar c as with
    | nil => exact absurd h (splitOnChar_ne_nil c as)
    | cons y ys =>
      rw [h] at hx
      by_cases hac : a = c
      · simp only [hac, if_pos rfl] at hx
        rcases List.mem_cons.mp hx with hx | hx
        · simp [hx]
        · exact ih x (h ▸ hx)
      · simp only [if_neg hac] at hx
        rcases List.mem_cons.mp hx with hx | hx
        · subst hx
          intro hc
          rcases List.mem_cons.mp hc with hc | hc
          · exact hac hc.symm
          · exact ih y (h ▸ List.mem_cons_self y ys) hc
        · exact ih x (h ▸ List.mem_cons_of_mem y hx)

theorem splitOnChar_of_not_mem {c : Char} {s : Str} (h : c ∉ s) :
    splitOnChar c s = [s] := by
  induction s with
  | nil => simp [splitOnChar]
  | cons a as ih =>
    have has : c ∉ as := fun hm => h (List.mem_cons_of_mem a hm)
    have hac : a ≠ c := fun he => h (he ▸ List.mem_cons_self a as)
    simp only [splitOnChar, ih has, if_neg hac]

theorem splitOnChar_append_sep {c : Char} {s t : Str} (h : c ∉ s) :
    splitOnChar c (s ++ c :: t) = s :: splitOnChar c t := by
  induction s with
  | nil =>
    simp only [List.nil_append, splitOnChar]
    cases ht : splitOnChar c t with
    | nil => exact absurd ht (splitOnChar_ne_nil c t)
    | cons y ys => simp
  | cons a as ih =>
    have has : c ∉ as := fun hm => h (List.mem_cons_of_mem a hm)
    have hac : a ≠ c := fun he => h (he ▸ List.mem_cons_self a as)
    simp only [List.cons_append, splitOnChar, List.append_eq, ih has, if_neg hac]

theorem splitOnChar_intercalateChar {c : Char} {l : List Str}
    (hne : l ≠ []) (h : ∀ x ∈ l, c ∉ x) :
    splitOnChar c (intercalateChar c l) = l := by
  induction l with
  | nil => exact absurd rfl hne
  | cons x xs ih =>
    cases xs with
    | nil =>
      simp only [intercalateChar]
      exact splitOnChar_of_not_mem (h x (List.mem_cons_self x []))
    | cons y ys =>
      simp only [intercalateChar]
      rw [splitOnChar_append_sep (h x (List.mem_cons_self x (y :: ys)))]
      congr 1
      exact ih (by simp) (fun z hz => h z (List.mem_cons_of_mem x hz))

theorem splitOnChar_append_trailing (c : Char) (s : Str) :
    splitOnChar c (s ++ [c]) = splitOnChar c s ++ [[]] := by
  induction s with
  | nil =>
    simp [splitOnChar]
  | cons a as ih =>
    cases h : splitOnChar c as with
    | nil => exact absurd h (splitOnChar_ne_nil c as)
    | cons y ys =>
      by_cases hac : a = c
      · simp [splitOnChar, ih, h, if_pos hac]
      · simp [splitOnChar, ih, h, if_neg hac]

theorem mem_of_mem_splitOnChar (c : Char) (s : Str) :
    ∀ p ∈ splitOnChar c s, ∀ x ∈ p, x ∈ s := by
  induction s with
  | nil =>
    intro p hp x hx
    simp [splitOnChar] at hp
    subst hp
    simp at hx
  | cons a as ih =>
    intro p hp x hx
    simp only [splitOnChar] at hp
    cases h : splitOnChar c as with
    | nil => exact absurd h (splitOnChar_ne_nil c as)
    | cons y ys =>
      rw [h] at hp
      by_cases hac : a = c
      · simp only [hac, if_pos rfl] at hp
        rcases List.mem_cons.mp hp with hp | hp
        · subst hp; simp at hx
        · exact List.mem_cons_of_mem a (ih p (h ▸ hp) x hx)
      · simp only [if_neg hac] at hp
        rcases List.mem_cons.mp hp with hp | hp
        · subst hp
          rcases List.mem_cons.mp hx with hx | hx
          · exact hx ▸ List.mem_cons_self a as
          · exact List.mem_cons_of_mem a
              (ih y (h ▸ List.mem_cons_self y ys) x hx)
        · exact List.mem_cons_of_mem a (ih p (h ▸ List.mem_cons_of_mem y hp) x hx)

theorem mem_intercalateChar {c : Char} {l : List Str} :
    ∀ x ∈ intercalateChar c l, x = c ∨ ∃ p ∈ l, x ∈ p := by
  induction l with
  | nil => simp [intercalateChar]
  | cons p ps ih =>
    cases ps with
    | nil =>
      intro x hx
      simp only [intercalateChar] at hx
      exact Or.inr ⟨p, List.mem_cons_self p [], hx⟩
    | cons q qs =>
      intro x hx
      simp only [intercalateChar] at hx
      rcases List.mem_append.mp hx with hx | hx
      · exact Or.inr ⟨p, List.mem_cons_self p (q :: qs), hx⟩
      · rcases List.mem_cons.mp hx with hx | hx
        · exact Or.inl hx
        · rcases ih x hx with h | ⟨r, hr, hxr⟩
          · exact Or.inl h
          · exact Or.inr ⟨r, List.mem_cons_of_mem p hr, hxr⟩

theorem intercalateChar_ne_nil_getLast {c : Char} {l : List Str}
    (hne : l ≠ []) (h : ∀ x ∈ l, x ≠ [] ∧ c ∉ x) :
    intercalateChar c l ≠ [] ∧ (intercalateChar c l).getLast? ≠ some c := by
  induction l with
  | nil => exact absurd rfl hne
  | cons x xs ih =>
    cases xs with
    | nil =>
      obtain ⟨hx, hcx⟩ := h x (List.mem_cons_self x [])
      refine ⟨hx, fun hl => ?_⟩
      exact hcx (List.mem_of_getLast?_eq_some hl)
    | cons y ys =>
      obtain ⟨hrest, hlast⟩ := ih (by simp) (fun z hz => h z (List.mem_cons_of_mem x hz))
      simp only [intercalateChar] at hrest hlast ⊢
      constructor
      · simp
      · rw [List.getLast?_append]
        have hc : (c :: intercalateChar c (y :: ys)).getLast? =
            (intercalateChar c (y :: ys)).getLast?.getD c := List.getLast?_cons
        rw [hc]
        cases hg : (intercalateChar c (y :: ys)).getLast? with
        | none => exact absurd (List.getLast?_eq_none_iff.mp hg) hrest
        | some d =>
          simp only [Option.getD_some, Option.or_some]
          intro hd
          apply hlast
          rw [hg]
          cases hd
          rfl

/-! ## Lemmas: deduplication -/

theorem dedup_cond_iff (seen : List Str) (a : Str) :
    (!a.isEmpty && !seen.contains a) = true ↔ a ≠ [] ∧ a ∉ seen := by
  simp [List.isEmpty_iff]

theorem dedupAppsAux_sublist (seen l : List Str) :
    (dedupAppsAux seen l).Sublist l := by
  induction l generalizing seen with
  | nil => simp [dedupAppsAux]
  | cons a rest ih =>
    simp only [dedupAppsAux]
    split
    · exact (ih (a :: seen)).cons₂ a
    · exact (ih seen).cons a

theorem dedupAppsAux_nodup_notMem (seen l : List Str) :
    (dedupAppsAux seen l).Nodup ∧ ∀ a ∈ dedupAppsAux seen l, a ≠ [] ∧ a ∉ seen := by
  induction l generalizing seen with
  | nil => simp [dedupAppsAux]
  | cons a rest ih =>
    simp only [dedupAppsAux]
    split
    · rename_i hcond
      obtain ⟨ha, hseen⟩ := (dedup_cond_iff seen a).mp hcond
      obtain ⟨hnd, hprops⟩ := ih (a :: seen)
      refine ⟨List.nodup_cons.mpr ⟨fun hmem => ?_, hnd⟩, ?_⟩
      · exact (hprops a hmem).2 (List.mem_cons_self a seen)
      · intro x hx
        rcases List.mem_cons.mp hx with hx | hx
        · exact hx ▸ ⟨ha, hseen⟩
        · obtain ⟨hxne, hxseen⟩ := hprops x hx
          exact ⟨hxne, fun hm => hxseen (List.mem_cons_of_mem a hm)⟩
    · exact ih seen

theorem mem_dedupAppsAux_of (seen l : List Str) :
    ∀ a ∈ l, a ≠ [] → a ∉ seen → a ∈ dedupAppsAux seen l := by
  induction l generalizing seen with
  | nil => simp
  | cons b rest ih =>
    intro a ha hne hseen
    simp only [dedupAppsAux]
    rcases List.mem_cons.mp ha with ha | ha
    · subst ha
      rw [if_pos ((dedup_cond_iff seen a).mpr ⟨hne, hseen⟩)]
      exact List.mem_cons_self a _
    · split
      · by_cases hab : a = b
        · exact hab ▸ List.mem_cons_self a _
        · exact List.mem_cons_of_mem b (ih (b :: seen) a ha hne (by
            intro hm
            rcases List.mem_cons.mp hm with hm | hm
            · exact hab hm
            · exact hseen hm))
      · exact ih seen a ha hne hseen

theorem dedupAppsAux_eq_self (seen l : List Str) (hnd : l.Nodup)
    (hne : ∀ a ∈ l, a ≠ []) (hdisj : ∀ a ∈ l, a ∉ seen) :
    dedupAppsAux seen l = l := by
  induction l generalizing seen with
  | nil => simp [dedupAppsAux]
  | cons a rest ih =>
    simp only [dedupAppsAux]
    rw [if_pos ((dedup_cond_iff seen a).mpr
      ⟨hne a (List.mem_cons_self a rest), hdisj a (List.mem_cons_self a rest)⟩)]
    congr 1
    refine ih (a :: seen) (List.nodup_cons.mp hnd).2
      (fun x hx => hne x (List.mem_cons_of_mem a hx)) ?_
    intro x hx hm
    rcases List.mem_cons.mp hm with hm | hm
    · exact (List.nodup_cons.mp hnd).1 (hm ▸ hx)
    · exact hdisj x (List.mem_cons_of_mem a hx) hm

theorem dedupAppsAux_append_nil (seen l : List Str) :
    dedupAppsAux seen (l ++ [[]]) = dedupAppsAux seen l := by
  induction l generalizing seen with
  | nil => simp [dedupAppsAux]
  | cons a rest ih =>
    simp only [List.cons_append, List.append_eq, dedupAppsAux]
    split
    · rw [ih (a :: seen)]
    · exact ih seen

theorem keepFirsts_foldl_eq (l : List Str) :
    ∀ (acc seen : List Str), (∀ a, a ∈ seen ↔ a ∈ acc) →
    l.foldl (fun acc a => if a ≠ [] ∧ a ∉ acc then acc ++ [a] else acc) acc =
      acc ++ dedupAppsAux seen l := by
  induction l with
  | nil => intro acc seen _; simp [dedupAppsAux]
  | cons a rest ih =>
    intro acc seen hiff
    simp only [List.foldl_cons, dedupAppsAux]
    by_cases hc : a ≠ [] ∧ a ∉ acc
    · rw [if_pos hc,
        if_pos ((dedup_cond_iff seen a).mpr ⟨hc.1, fun hm => hc.2 ((hiff a).mp hm)⟩)]
      rw [ih (acc ++ [a]) (a :: seen) (by
        intro x
        constructor
        · intro hm
          rcases List.mem_cons.mp hm with hm | hm
          · exact List.mem_append.mpr (Or.inr (by simp [hm]))
          · exact List.mem_append.mpr (Or.inl ((hiff x).mp hm))
        · intro hm
          rcases List.mem_append.mp hm with hm | hm
          · exact List.mem_cons_of_mem a ((hiff x).mpr hm)
          · simp at hm
            simp [hm])]
      simp
    · rw [if_neg hc,
        if_neg (fun hcond => ?_)]
      · exact ih acc seen hiff
      · obtain ⟨h1, h2⟩ := (dedup_cond_iff seen a).mp hcond
        exact hc ⟨h1, fun hm => h2 ((hiff a).mpr hm)⟩

theorem keepFirsts_eq_dedupApps (l : List Str) : keepFirsts l = dedupApps l := by
  have h := keepFirsts_foldl_eq l [] [] (by simp)
  simpa [keepFirsts, dedupApps] using h

/-! ## Lemmas: splitting on the first equals sign -/

theorem splitEqOnce_fst_not_mem (s : Str) : '=' ∉ (splitEqOnce s).1 := by
  induction s with
  | nil => simp [splitEqOnce]
  | cons c cs ih =>
    simp only [splitEqOnce]
    split
    · simp
    · rename_i hc
      intro hm
      rcases List.mem_cons.mp hm with hm | hm
      · exact hc hm.symm
      · exact ih hm

theorem splitEqOnce_append {k : Str} (v : Str) (h : '=' ∉ k) :
    splitEqOnce (k ++ '=' :: v) = (k, v) := by
  induction k with
  | nil => simp [splitEqOnce]
  | cons a as ih =>
    have has : '=' ∉ as := fun hm => h (List.mem_cons_of_mem a hm)
    have hae : a ≠ '=' := fun he => h (he ▸ List.mem_cons_self a as)
    simp only [List.cons_append, List.append_eq, splitEqOnce, if_neg hae, ih has]

theorem splitEqOnce_reconstruct {s : Str} (h : s.contains '=' = true) :
    (splitEqOnce s).1 ++ '=' :: (splitEqOnce s).2 = s := by
  induction s with
  | nil => simp at h
  | cons c cs ih =>
    simp only [splitEqOnce]
    by_cases hc : c = '='
    · subst hc; simp
    · rw [if_neg hc]
      simp only [List.cons_append, List.cons.injEq, true_and]
      apply ih
      simp only [List.contains_cons, Bool.or_eq_true] at h
      rcases h with h | h
      · exact absurd (beq_iff_eq.mp h).symm hc
      · exact h

theorem mem_of_mem_splitEqOnce_fst (s : Str) :
    ∀ x ∈ (splitEqOnce s).1, x ∈ s := by
  induction s with
  | nil => simp [splitEqOnce]
  | cons c cs ih =>
    intro x hx
    simp only [splitEqOnce] at hx
    split at hx
    · simp at hx
    · rcases List.mem_cons.mp hx with hx | hx
      · exact hx ▸ List.mem_cons_self c cs
      · exact List.mem_cons_of_mem c (ih x hx)

theorem mem_of_mem_splitEqOnce_snd (s : Str) :
    ∀ x ∈ (splitEqOnce s).2, x ∈ s := by
  induction s with
  | nil => simp [splitEqOnce]
  | cons c cs ih =>
    intro x hx
    simp only [splitEqOnce] at hx
    split at hx
    · exact List.mem_cons_of_mem c hx
    · exact List.mem_cons_of_mem c (ih x hx)

/-! ## Lemmas: association-value cleaning -/

theorem dedupApps_split_props (v : Str) :
    ∀ x ∈ dedupApps (splitOnChar ';' v), x ≠ [] ∧ ';' ∉ x := by
  intro x hx
  have hmem : x ∈ splitOnChar ';' v := (dedupAppsAux_sublist [] _).subset hx
  exact ⟨((dedupAppsAux_nodup_notMem [] _).2 x hx).1,
         not_mem_of_mem_splitOnChar ';' v x hmem⟩

theorem cleanValue_eq (v : Str) :
    (dedupApps (splitOnChar ';' v) = [] ∧ cleanValue v = []) ∨
    (dedupApps (splitOnChar ';' v) ≠ [] ∧
      cleanValue v = intercalateChar ';' (dedupApps (splitOnChar ';' v)) ++ [';']) := by
  by_cases h : dedupApps (splitOnChar ';' v) = []
  · left
    refine ⟨h, ?_⟩
    simp [cleanValue, h, intercalateChar]
  · right
    refine ⟨h, ?_⟩
    obtain ⟨hne, hlast⟩ := intercalateChar_ne_nil_getLast h (dedupApps_split_props v)
    have hends : endsWithChar ';' (intercalateChar ';' (dedupApps (splitOnChar ';' v))) = false := by
      simp only [endsWithChar, decide_eq_false_iff_not]
      exact hlast
    simp only [cleanValue, hends, Bool.not_false, Bool.and_true]
    rw [if_pos]
    simp [List.isEmpty_iff, hne]

theorem parseList_cleanValue (v : Str) :
    parseList (cleanValue v) = dedupApps (splitOnChar ';' v) := by
  rcases cleanValue_eq v with ⟨h, he⟩ | ⟨h, he⟩
  · rw [he, h]
    simp [parseList, splitOnChar]
  · rw [he]
    have hsplit : splitOnChar ';' (intercalateChar ';' (dedupApps (splitOnChar ';' v)) ++ [';']) =
        dedupApps (splitOnChar ';' v) ++ [[]] := by
      rw [splitOnChar_append_trailing,
        splitOnChar_intercalateChar h (fun x hx => (dedupApps_split_props v x hx).2)]
    simp only [parseList, hsplit]
    rw [if_pos]
    · exact List.dropLast_concat
    · simp

theorem cleanValue_idem (v : Str) : cleanValue (cleanValue v) = cleanValue v := by
  rcases cleanValue_eq v with ⟨h, he⟩ | ⟨h, he⟩
  · rw [he]
    rfl
  · rw [he]
    have hsplit : splitOnChar ';' (intercalateChar ';' (dedupApps (splitOnChar ';' v)) ++ [';']) =
        dedupApps (splitOnChar ';' v) ++ [[]] := by
      rw [splitOnChar_append_trailing,
        splitOnChar_intercalateChar h (fun x hx => (dedupApps_split_props v x hx).2)]
    have hdedup : dedupApps (splitOnChar ';'
        (intercalateChar ';' (dedupApps (splitOnChar ';' v)) ++ [';'])) =
        dedupApps (splitOnChar ';' v) := by
      rw [hsplit]
      unfold dedupApps
      rw [dedupAppsAux_append_nil]
      exact dedupAppsAux_eq_self [] _ (dedupAppsAux_nodup_notMem [] _).1
        (fun a ha => (dedupApps_split_props v a ha).1) (by simp)
    obtain ⟨hne, hlast⟩ := intercalateChar_ne_nil_getLast h (dedupApps_split_props v)
    have hends : endsWithChar ';' (intercalateChar ';' (dedupApps (splitOnChar ';' v))) = false := by
      simp only [endsWithChar, decide_eq_false_iff_not]
      exact hlast
    simp only [cleanValue, hdedup, hends, Bool.not_false, Bool.and_true]
    rw [if_pos]
    simp [List.isEmpty_iff, hne]

theorem cleanMimeLine_eq_of_cond {line : Str} (h1 : line.contains '=' = true)
    (h2 : containsSub ".desktop".toList line = true) :
    cleanMimeLine line = (splitEqOnce line).1 ++ '=' :: cleanValue (splitEqOnce line).2 := by
  unfold cleanMimeLine
  rw [if_pos (Bool.and_eq_true_iff.mpr ⟨h1, h2⟩)]

theorem cleanMimeLine_idem (line : Str) :
    cleanMimeLine (cleanMimeLine line) = cleanMimeLine line := by
  by_cases hc : (line.contains '=' && containsSub ".desktop".toList line) = true
  · obtain ⟨h1, h2⟩ := Bool.and_eq_true_iff.mp hc
    rw [cleanMimeLine_eq_of_cond h1 h2]
    by_cases hc2 : ((((splitEqOnce line).1 ++ '=' :: cleanValue (splitEqOnce line).2).contains '=') &&
        containsSub ".desktop".toList ((splitEqOnce line).1 ++ '=' :: cleanValue (splitEqOnce line).2)) = true
    · obtain ⟨h3, h4⟩ := Bool.and_eq_true_iff.mp hc2
      rw [cleanMimeLine_eq_of_cond h3 h4,
        splitEqOnce_append (cleanValue (splitEqOnce line).2) (splitEqOnce_fst_not_mem line),
        cleanValue_idem]
    · simp only [cleanMimeLine]
      rw [if_neg hc2]
  · have hl : cleanMimeLine line = line := by
      simp only [cleanMimeLine]
      rw [if_neg hc]
    simp [hl]

theorem cleanMimeLine_no_newline {line : Str} (h : '\n' ∉ line) :
    '\n' ∉ cleanMimeLine line := by
  by_cases hc : (line.contains '=' && containsSub ".desktop".toList line) = true
  · obtain ⟨h1, h2⟩ := Bool.and_eq_true_iff.mp hc
    rw [cleanMimeLine_eq_of_cond h1 h2]
    intro hmem
    rcases List.mem_append.mp hmem with hmem | hmem
    · exact h (mem_of_mem_splitEqOnce_fst line _ hmem)
    · rcases List.mem_cons.mp hmem with hmem | hmem
      · exact absurd hmem (by decide)
      · rcases cleanValue_eq (splitEqOnce line).2 with ⟨_, he⟩ | ⟨_, he⟩
        · rw [he] at hmem
          simp at hmem
        · rw [he] at hmem
          rcases List.mem_append.mp hmem with hmem | hmem
          · rcases mem_intercalateChar _ hmem with hsc | ⟨p, hp, hxp⟩
            · exact absurd hsc (by decide)
            · have hps : p ∈ splitOnChar ';' (splitEqOnce line).2 :=
                (dedupAppsAux_sublist [] _).subset hp
              exact h (mem_of_mem_splitEqOnce_snd line '\n'
                (mem_of_mem_splitOnChar ';' _ p hps '\n' hxp))
          · simp at hmem
  · have hl : cleanMimeLine line = line := by
      simp only [cleanMimeLine]
      rw [if_neg hc]
    rw [hl]
    exact h

theorem cleanMimeContent_idem (content : Str) :
    cleanMimeContent (cleanMimeContent content) = cleanMimeContent content := by
  have hlines : splitOnChar '\n' (cleanMimeContent content) =
      (splitOnChar '\n' content).map cleanMimeLine := by
    unfold cleanMimeContent
    refine splitOnChar_intercalateChar ?_ ?_
    · simp [splitOnChar_ne_nil '\n' content]
    · intro x hx
      obtain ⟨y, hy, hxy⟩ := List.mem_map.mp hx
      exact hxy ▸ cleanMimeLine_no_newline (not_mem_of_mem_splitOnChar '\n' content y hy)
  conv_lhs => rw [cleanMimeContent, hlines]
  rw [List.map_map]
  congr 1
  exact List.map_congr_left (fun a _ => cleanMimeLine_idem a)

/-! ## Lemmas: the resolver sort order -/

theorem lexLe_refl (s : Str) : lexLe s s = true := by
  induction s with
  | nil => rfl
  | cons a as ih =>
    simp only [lexLe, if_neg (lt_irrefl a)]
    exact ih

theorem lexLe_total (a b : Str) : lexLe a b = true ∨ lexLe b a = true := by
  induction a generalizing b with
  | nil => left; rfl
  | cons x xs ih =>
    cases b with
    | nil => right; rfl
    | cons y ys =>
      rcases lt_trichotomy x y with h | h | h
      · left
        simp [lexLe, if_pos h]
      · subst h
        rcases ih ys with h2 | h2
        · left
          simp only [lexLe, if_neg (lt_irrefl x)]
          exact h2
        · right
          simp only [lexLe, if_neg (lt_irrefl x)]
          exact h2
      · right
        simp [lexLe, if_pos h]

theorem lexLe_trans {a b c : Str} (h1 : lexLe a b = true) (h2 : lexLe b c = true) :
    lexLe a c = true := by
  induction a generalizing b c with
  | nil => rfl
  | cons x xs ih =>
    cases b with
    | nil => simp [lexLe] at h1
    | cons y ys =>
      cases c with
      | nil => simp [lexLe] at h2
      | cons z zs =>
        simp only [lexLe] at h1 h2 ⊢
        rcases lt_trichotomy x y with hxy | hxy | hxy
        · rcases lt_trichotomy y z with hyz | hyz | hyz
          · rw [if_pos (hxy.trans hyz)]
          · subst hyz
            rw [if_pos hxy]
          · rw [if_neg (lt_asymm hyz), if_pos hyz] at h2
            exact absurd h2 Bool.false_ne_true
        · subst hxy
          rw [if_neg (lt_irrefl x), if_neg (lt_irrefl x)] at h1
          rcases lt_trichotomy x z with hyz | hyz | hyz
          · rw [if_pos hyz]
          · subst hyz
            rw [if_neg (lt_irrefl x), if_neg (lt_irrefl x)] at h2 ⊢
            exact ih h1 h2
          · rw [if_neg (lt_asymm hyz), if_pos hyz] at h2
            exact absurd h2 Bool.false_ne_true
        · rw [if_neg (lt_asymm hxy), if_pos hxy] at h1
          exact absurd h1 Bool.false_ne_true

theorem keyLe_total (R : Roots) (p q : Str) :
    keyLe R p q = true ∨ keyLe R q p = true := by
  unfold keyLe
  by_cases h : isUserPath R p = isUserPath R q
  · rw [if_pos h, if_pos h.symm]
    exact lexLe_total p q
  · rw [if_neg h, if_neg (Ne.symm h)]
    cases hq : isUserPath R q with
    | true => left; rfl
    | false =>
      right
      rw [hq] at h
      cases hp : isUserPath R p with
      | true => rfl
      | false => exact absurd hp h

theorem keyLe_trans (R : Roots) {p q r : Str} (h1 : keyLe R p q = true)
    (h2 : keyLe R q r = true) : keyLe R p r = true := by
  unfold keyLe at h1 h2 ⊢
  cases hp : isUserPath R p <;> cases hq : isUserPath R q <;> cases hr : isUserPath R r <;>
    simp_all <;> exact lexLe_trans h1 h2

instance (R : Roots) : IsTotal Str (resolverLe R) := ⟨keyLe_total R⟩

instance (R : Roots) : IsTrans Str (resolverLe R) := ⟨fun _ _ _ => keyLe_trans R⟩

/-! ## Lemmas: counting folds -/

theorem foldl_count_ops {A : Type} (step : (Nat × List FsOp) → A → (Nat × List FsOp))
    (g : A → Nat) (h : A → List FsOp)
    (hstep : ∀ acc x, step acc x = (acc.1 + g x, acc.2 ++ h x)) :
    ∀ (l : List A) (n : Nat) (os : List FsOp),
      l.foldl step (n, os) = (n + (l.map g).sum, os ++ l.flatMap h) := by
  intro l
  induction l with
  | nil => intro n os; simp
  | cons x xs ih =>
    intro n os
    simp only [List.foldl_cons, hstep, List.map_cons, List.sum_cons, List.flatMap_cons]
    rw [ih]
    simp [Nat.add_assoc, List.append_assoc]

theorem sum_map_ite_one {A : Type} (p : A → Bool) (l : List A) :
    (l.map (fun x => if p x then 1 else 0)).sum = (l.filter p).length := by
  induction l with
  | nil => rfl
  | cons x xs ih => by_cases h : p x <;> simp [h, ih, List.filter_cons, Nat.add_comm]

theorem sum_map_ite_val {A : Type} (p : A → Bool) (g : A → Nat) (l : List A) :
    (l.map (fun x => if p x then g x else 0)).sum = ((l.filter p).map g).sum := by
  induction l with
  | nil => rfl
  | cons x xs ih => by_cases h : p x <;> simp [h, ih, List.filter_cons]

/-! ## Lemmas: in-place suppression -/

theorem addNoDisplayLoop_eq_spec (ls : List Str) :
    addNoDisplayLoop ls = insertFlagSpec ls := by
  induction ls with
  | nil => rfl
  | cons l ls ih =>
    by_cases h : stripStr l = "[Desktop Entry]".toList
    · have hp : notHeaderLine l = false := by simp [notHeaderLine, h]
      simp only [addNoDisplayLoop, if_pos h, insertFlagSpec,
        List.dropWhile_cons, List.takeWhile_cons, hp]
      simp
    · have hp : notHeaderLine l = true := by simpa [notHeaderLine] using h
      simp only [addNoDisplayLoop, if_neg h, ih, insertFlagSpec,
        List.dropWhile_cons, List.takeWhile_cons, hp]
      cases hf : ls.dropWhile notHeaderLine with
      | nil => simp
      | cons m rest => simp

theorem addNoDisplaySpec_eq (lines : List Str) :
    addNoDisplayLines lines = addNoDisplaySpec lines :=
  addNoDisplayLoop_eq_spec (stripNoDisplayLines lines)

theorem filter_noDisplay_loop (ls : List Str)
    (h : ∀ l ∈ ls, "NoDisplay=".toList.isPrefixOf (stripStr l) = false) :
    (addNoDisplayLoop ls).filter
      (fun l => "NoDisplay=".toList.isPrefixOf (stripStr l)) = ["NoDisplay=true\n".toList] := by
  induction ls with
  | nil => rfl
  | cons l ls ih =>
    have hl := h l (List.mem_cons_self l ls)
    have hl2 : ¬("NoDisplay=".toList.isPrefixOf (stripStr l) = true) := by
      rw [hl]
      simp
    by_cases hh : stripStr l = "[Desktop Entry]".toList
    · simp only [addNoDisplayLoop, if_pos hh, List.filter_cons]
      rw [if_neg hl2, if_pos
        (show ("NoDisplay=".toList.isPrefixOf
          (stripStr "NoDisplay=true\n".toList)) = true by decide)]
      have hnil : List.filter (fun l => "NoDisplay=".toList.isPrefixOf (stripStr l)) ls = [] := by
        rw [List.filter_eq_nil_iff]
        intro x hx
        rw [h x (List.mem_cons_of_mem l hx)]
        simp
      rw [hnil]
    · simp only [addNoDisplayLoop, if_neg hh, List.filter_cons]
      rw [if_neg hl2]
      exact ih (fun x hx => h x (List.mem_cons_of_mem l hx))

theorem count_noDisplay_addNoDisplayLines (lines : List Str) :
    ((addNoDisplayLines lines).filter
      (fun l => "NoDisplay=".toList.isPrefixOf (stripStr l))).length = 1 := by
  unfold addNoDisplayLines
  rw [filter_noDisplay_loop]
  · rfl
  · intro l hl
    have := List.of_mem_filter hl
    simpa using this

/-! ## Lemmas: the extractor key prefixes are mutually exclusive -/

theorem name_noDisplay_excl (s : Str) :
    "Name=".toList.isPrefixOf s = true → "NoDisplay=".toList.isPrefixOf s = true → False := by
  intro h1 h2
  rw [List.isPrefixOf_iff_prefix] at h1 h2
  obtain ⟨t1, ht1⟩ := h1
  obtain ⟨t2, ht2⟩ := h2
  rw [← ht1] at ht2
  have e1 : "Name=".toList = ['N', 'a', 'm', 'e', '='] := rfl
  have e2 : "NoDisplay=".toList = ['N', 'o', 'D', 'i', 's', 'p', 'l', 'a', 'y', '='] := rfl
  rw [e1, e2] at ht2
  simp at ht2

theorem name_type_excl (s : Str) :
    "Name=".toList.isPrefixOf s = true → "Type=".toList.isPrefixOf s = true → False := by
  intro h1 h2
  rw [List.isPrefixOf_iff_prefix] at h1 h2
  obtain ⟨t1, ht1⟩ := h1
  obtain ⟨t2, ht2⟩ := h2
  rw [← ht1] at ht2
  have e1 : "Name=".toList = ['N', 'a', 'm', 'e', '='] := rfl
  have e2 : "Type=".toList = ['T', 'y', 'p', 'e', '='] := rfl
  rw [e1, e2] at ht2
  simp at ht2

theorem noDisplay_type_excl (s : Str) :
    "NoDisplay=".toList.isPrefixOf s = true → "Type=".toList.isPrefixOf s = true → False := by
  intro h1 h2
  rw [List.isPrefixOf_iff_prefix] at h1 h2
  obtain ⟨t1, ht1⟩ := h1
  obtain ⟨t2, ht2⟩ := h2
  rw [← ht1] at ht2
  have e1 : "NoDisplay=".toList = ['N', 'o', 'D', 'i', 's', 'p', 'l', 'a', 'y', '='] := rfl
  have e2 : "Type=".toList = ['T', 'y', 'p', 'e', '='] := rfl
  rw [e1, e2] at ht2
  simp at ht2

/-! ## Lemmas: the extractor assigns the last occurrence -/

theorem parseLine_name (info : DesktopInfo) (l : Str) :
    (parseLine info l).name = (nameOfLine l).or info.name := by
  simp only [parseLine, nameOfLine]
  split_ifs <;> simp

theorem parseLine_noDisplay (info : DesktopInfo) (l : Str) :
    (parseLine info l).noDisplay = (noDisplayOfLine l).or info.noDisplay := by
  simp only [parseLine, noDisplayOfLine]
  split_ifs <;>
    first
      | exact (name_noDisplay_excl _ (by assumption) (by assumption)).elim
      | simp

theorem parseLine_type (info : DesktopInfo) (l : Str) :
    (parseLine info l).entryType = (typeOfLine l).or info.entryType := by
  simp only [parseLine, typeOfLine]
  split_ifs <;>
    first
      | exact (name_type_excl _ (by assumption) (by assumption)).elim
      | exact (noDisplay_type_excl _ (by assumption) (by assumption)).elim
      | simp

theorem parseLines_name (ls : List Str) :
    (parseLines ls).name = (ls.filterMap nameOfLine).getLast? := by
  induction ls using List.reverseRecOn with
  | nil => rfl
  | append_singleton ls l ih =>
    rw [parseLines, List.foldl_append]
    simp only [List.foldl_cons, List.foldl_nil]
    rw [parseLine_name, List.filterMap_append, List.getLast?_append]
    cases hn : nameOfLine l with
    | none => simpa [hn] using ih
    | some v => simp [hn]

theorem parseLines_noDisplay (ls : List Str) :
    (parseLines ls).noDisplay = (ls.filterMap noDisplayOfLine).getLast? := by
  induction ls using List.reverseRecOn with
  | nil => rfl
  | append_singleton ls l ih =>
    rw [parseLines, List.foldl_append]
    simp only [List.foldl_cons, List.foldl_nil]
    rw [parseLine_noDisplay, List.filterMap_append, List.getLast?_append]
    cases hn : noDisplayOfLine l with
    | none => simpa [hn] using ih
    | some v => simp [hn]

theorem parseLines_type (ls : List Str) :
    (parseLines ls).entryType = (ls.filterMap typeOfLine).getLast? := by
  induction ls using List.reverseRecOn with
  | nil => rfl
  | append_singleton ls l ih =>
    rw [parseLines, List.foldl_append]
    simp only [List.foldl_cons, List.foldl_nil]
    rw [parseLine_type, List.filterMap_append, List.getLast?_append]
    cases hn : typeOfLine l with
    | none => simpa [hn] using ih
    | some v => simp [hn]

/-! ## Lemmas: purge closed forms -/

theorem sum_map_one {A : Type} (l : List A) : (l.map (fun _ => 1)).sum = l.length := by
  induction l with
  | nil => rfl
  | cons x xs ih => simp [ih, Nat.add_comm]

theorem flatMap_nil_fun {A : Type} (l : List A) :
    (l.flatMap (fun _ => ([] : List FsOp))) = [] := by
  induction l with
  | nil => rfl
  | cons x xs ih => simp [ih]

theorem wineFileStep_wet (R : Roots) (e : WineEnv) :
    ∀ (acc : Nat × List FsOp) (f : Str), wineFileStep R false e acc f =
      (acc.1 + (if e.unlinkOk f then 1 else 0), acc.2 ++ wineFileOp R e f) := by
  intro acc f
  unfold wineFileStep wineFileOp
  by_cases h : e.unlinkOk f = true <;> simp [h]

theorem wineFileStep_dry (R : Roots) (e : WineEnv) :
    ∀ (acc : Nat × List FsOp) (f : Str), wineFileStep R true e acc f =
      (acc.1 + 1, acc.2 ++ []) := by
  intro acc f
  simp [wineFileStep]

theorem wineDirStep_wet (R : Roots) (e : WineEnv) :
    ∀ (acc : Nat × List FsOp) (b : BackupEntry), wineDirStep R false e acc b =
      (acc.1 + (if wineDirRemoved e b then
          (b.contents.filter (globMatch "wine-".toList ".desktop".toList)).length else 0),
       acc.2 ++ wineDirOp R e b) := by
  intro acc b
  cases hb : b.isDir <;>
    cases hm : (b.contents.filter (globMatch "wine-".toList ".desktop".toList)).isEmpty <;>
    cases hr : e.rmtreeOk b.name <;>
    all_goals
      simp only [wineDirStep, wineDirRemoved, wineDirOp, hb, hm, hr]
      simp

theorem wineDirStep_dry (R : Roots) (e : WineEnv) :
    ∀ (acc : Nat × List FsOp) (b : BackupEntry), wineDirStep R true e acc b =
      (acc.1 + (if b.isDir &&
          !(b.contents.filter (globMatch "wine-".toList ".desktop".toList)).isEmpty then
          (b.contents.filter (globMatch "wine-".toList ".desktop".toList)).length else 0),
       acc.2 ++ []) := by
  intro acc b
  cases hb : b.isDir <;>
    cases hm : (b.contents.filter (globMatch "wine-".toList ".desktop".toList)).isEmpty <;>
    all_goals
      simp only [wineDirStep, hb, hm]
      simp

theorem removeWineFiles_wet (R : Roots) (e : WineEnv) :
    removeWineFiles R false e =
      (wineCountSpec e,
       (e.files.filter (globMatch "wine-extension-".toList ".desktop".toList)).flatMap
           (wineFileOp R e) ++
         ((e.files.filter (globMatch "wine-protocol-".toList ".desktop".toList)).flatMap
           (wineFileOp R e) ++
         (e.backups.filter (fun b => globMatch "backup_".toList [] b.name)).flatMap
           (wineDirOp R e))) := by
  simp only [removeWineFiles]
  rw [foldl_count_ops (wineFileStep R false e) _ _ (wineFileStep_wet R e),
    foldl_count_ops (wineFileStep R false e) _ _ (wineFileStep_wet R e),
    foldl_count_ops (wineDirStep R false e) _ _ (wineDirStep_wet R e)]
  unfold wineCountSpec
  rw [sum_map_ite_one e.unlinkOk
      (e.files.filter (globMatch "wine-extension-".toList ".desktop".toList)),
    sum_map_ite_one e.unlinkOk
      (e.files.filter (globMatch "wine-protocol-".toList ".desktop".toList)),
    sum_map_ite_val (wineDirRemoved e)
      (fun b => (b.contents.filter (globMatch "wine-".toList ".desktop".toList)).length)
      (e.backups.filter (fun b => globMatch "backup_".toList [] b.name))]
  simp only [Nat.zero_add, List.nil_append, Nat.add_assoc, List.append_assoc]

theorem removeWineFiles_dry (R : Roots) (e : WineEnv) :
    removeWineFiles R true e =
      ((e.files.filter (globMatch "wine-extension-".toList ".desktop".toList)).length +
       (e.files.filter (globMatch "wine-protocol-".toList ".desktop".toList)).length +
       ((e.backups.filter (fun b => globMatch "backup_".toList [] b.name)).map
          (fun b => if b.isDir &&
              !(b.contents.filter (globMatch "wine-".toList ".desktop".toList)).isEmpty then
              (b.contents.filter (globMatch "wine-".toList ".desktop".toList)).length
            else 0)).sum,
       []) := by
  simp only [removeWineFiles]
  rw [foldl_count_ops (wineFileStep R true e) _ _ (wineFileStep_dry R e),
    foldl_count_ops (wineFileStep R true e) _ _ (wineFileStep_dry R e),
    foldl_count_ops (wineDirStep R true e) _ _ (wineDirStep_dry R e)]
  simp [Nat.add_assoc, sum_map_one, flatMap_nil_fun]

/-! ## Lemmas: resolver closed forms -/

theorem hideGroup_eq (R : Roots) (dryRun : Bool) (writeOk : Str → Bool) (fs : Str → Str)
    (appName : Str) (files : List Str) :
    hideGroup R dryRun writeOk fs appName files =
      ((((sortFiles R files).tail).map
          (fun p => (hideOne R dryRun writeOk fs appName p).1)).sum,
       ((sortFiles R files).tail).flatMap
          (fun p => (hideOne R dryRun writeOk fs appName p).2)) := by
  unfold hideGroup
  have h := foldl_count_ops
    (fun (acc : Nat × List FsOp) p =>
      (acc.1 + (hideOne R dryRun writeOk fs appName p).1,
       acc.2 ++ (hideOne R dryRun writeOk fs appName p).2))
    (fun p => (hideOne R dryRun writeOk fs appName p).1)
    (fun p => (hideOne R dryRun writeOk fs appName p).2)
    (fun acc p => rfl)
    ((sortFiles R files).tail) 0 []
  simpa using h

theorem hideAll_eq (R : Roots) (dryRun : Bool) (writeOk : Str → Bool) (fs : Str → Str)
    (groups : List (Str × List Str)) :
    hideDuplicateApplications R dryRun writeOk fs groups =
      ((groups.map (fun g => (hideGroup R dryRun writeOk fs g.1 g.2).1)).sum,
       groups.flatMap (fun g => (hideGroup R dryRun writeOk fs g.1 g.2).2)) := by
  unfold hideDuplicateApplications
  have h := foldl_count_ops
    (fun (acc : Nat × List FsOp) (g : Str × List Str) =>
      (acc.1 + (hideGroup R dryRun writeOk fs g.1 g.2).1,
       acc.2 ++ (hideGroup R dryRun writeOk fs g.1 g.2).2))
    (fun g => (hideGroup R dryRun writeOk fs g.1 g.2).1)
    (fun g => (hideGroup R dryRun writeOk fs g.1 g.2).2)
    (fun acc g => rfl)
    groups 0 []
  simpa using h

theorem hideOne_dry (R : Roots) (writeOk : Str → Bool) (fs : Str → Str)
    (appName p : Str) :
    hideOne R true writeOk fs appName p =
      (if isSystemPath R p || isUserPath R p then 1 else 0, []) := by
  unfold hideOne
  by_cases h1 : isSystemPath R p = true <;> by_cases h2 : isUserPath R p = true <;>
    simp [h1, h2]

theorem hideOne_wet_ok (R : Roots) (writeOk : Str → Bool) (fs : Str → Str)
    (appName p : Str) (hw : ∀ q, writeOk q = true) :
    (hideOne R false writeOk fs appName p).1 =
      (if isSystemPath R p || isUserPath R p then 1 else 0) := by
  unfold hideOne
  by_cases h1 : isSystemPath R p = true <;> by_cases h2 : isUserPath R p = true <;>
    simp [h1, h2, hw]

theorem hideOne_neither (R : Roots) (dryRun : Bool) (writeOk : Str → Bool) (fs : Str → Str)
    (appName p : Str) (h1 : isSystemPath R p = false) (h2 : isUserPath R p = false) :
    hideOne R dryRun writeOk fs appName p = (0, []) := by
  unfold hideOne
  simp [h1, h2]

theorem isUserPath_childPath (R : Roots) (x : Str) :
    isUserPath R (childPath R.userRoot x) = true := by
  unfold isUserPath childPath
  exact List.isPrefixOf_iff_prefix.mpr (List.prefix_append _ _)

theorem hideOne_ops_target (R : Roots) (dryRun : Bool) (writeOk : Str → Bool)
    (fs : Str → Str) (appName p : Str) :
    ∀ op ∈ (hideOne R dryRun writeOk fs appName p).2, isUserPath R op.target = true := by
  intro op hop
  unfold hideOne at hop
  by_cases h1 : isSystemPath R p = true
  · rw [if_pos h1] at hop
    by_cases hd : dryRun = true
    · simp [hd] at hop
    · rw [if_neg hd] at hop
      by_cases hw : writeOk (childPath R.userRoot (fileName p)) = true
      · rw [if_pos hw] at hop
        rcases List.mem_cons.mp hop with hop | hop
        · rw [hop]
          exact isUserPath_childPath R (fileName p)
        · simp at hop
      · simp [hw] at hop
  · rw [if_neg h1] at hop
    by_cases h2 : isUserPath R p = true
    · rw [if_pos h2] at hop
      by_cases hd : dryRun = true
      · simp [hd] at hop
      · rw [if_neg hd] at hop
        by_cases hw : writeOk p = true
        · rw [if_pos hw] at hop
          rcases List.mem_cons.mp hop with hop | hop
          · rw [hop]
            exact h2
          · simp at hop
        · simp [hw] at hop
    · simp [h2] at hop

theorem hideOne_system_shape (R : Roots) (writeOk : Str → Bool) (fs : Str → Str)
    (appName p : Str) (h1 : isSystemPath R p = true) :
    hideOne R false writeOk fs appName p =
      (1, [FsOp.write (childPath R.userRoot (fileName p)) (overrideContent appName)]) ∨
    hideOne R false writeOk fs appName p = (0, []) := by
  unfold hideOne
  rw [if_pos h1]
  by_cases hw : writeOk (childPath R.userRoot (fileName p)) = true
  · left
    simp [hw]
  · right
    simp [hw]

/-! ## Lemmas: association deduplicator effects -/

theorem cleanMimeFileM_dry (path : Str) (e : MimeFileEnv) (h : e.readOk = true) :
    cleanMimeFileM true path e = (0, [], Except.ok true) := by
  simp [cleanMimeFileM, h]

theorem cleanMimeFileM_wet_ok (path : Str) (e : MimeFileEnv) (hb : e.backupOk = true)
    (hr : e.readOk = true) (hw : e.writeOk = true) :
    cleanMimeFileM false path e =
      (1, [FsOp.write (withSuffixListBak path) e.content,
           FsOp.write path (cleanMimeContent e.content)], Except.ok true) := by
  simp [cleanMimeFileM, hb, hr, hw]

theorem cleanMimeFileM_err (path : Str) (e : MimeFileEnv)
    (h : e.backupOk = false ∨ e.readOk = false ∨ e.writeOk = false) :
    (cleanMimeFileM false path e).2.2 = Except.error CleanerErr.backupFailure := by
  cases hb : e.backupOk <;> cases hr : e.readOk <;> cases hw : e.writeOk <;>
    simp_all [cleanMimeFileM]

theorem cleanMimeFileM_ops_target (dryRun : Bool) (path : Str) (e : MimeFileEnv) :
    ∀ op ∈ (cleanMimeFileM dryRun path e).2.1,
      op.target = path ∨ op.target = withSuffixListBak path := by
  cases dryRun <;> cases hb : e.backupOk <;> cases hr : e.readOk <;> cases hw : e.writeOk <;>
    simp [cleanMimeFileM, hb, hr, hw, FsOp.target]

theorem cleanMimeFileM_backup_inc (path : Str) (e : MimeFileEnv) (hb : e.backupOk = true) :
    (cleanMimeFileM false path e).1 = 1 := by
  cases hr : e.readOk <;> cases hw : e.writeOk <;> simp [cleanMimeFileM, hb, hr, hw]

theorem mimeFileStep_add (dryRun : Bool) (acc : Nat × Nat × List FsOp)
    (pf : Str × Option MimeFileEnv) :
    mimeFileStep dryRun acc pf =
      (acc.1 + (mimeFileStep dryRun (0, 0, []) pf).1,
       acc.2.1 + (mimeFileStep dryRun (0, 0, []) pf).2.1,
       acc.2.2 ++ (mimeFileStep dryRun (0, 0, []) pf).2.2) := by
  rcases pf with ⟨path, opt⟩
  cases opt with
  | none => simp [mimeFileStep]
  | some e =>
    simp only [mimeFileStep]
    cases hres : (cleanMimeFileM dryRun path e).2.2 with
    | ok b => simp [hres]
    | error err => simp [hres]

theorem cleanMimeDuplicates_eq (dryRun : Bool) (up cp : Str) (u c : Option MimeFileEnv) :
    cleanMimeDuplicates dryRun up cp u c =
      ((mimeFileStep dryRun (0, 0, []) (up, u)).1 +
         (mimeFileStep dryRun (0, 0, []) (cp, c)).1,
       (mimeFileStep dryRun (0, 0, []) (up, u)).2.1 +
         (mimeFileStep dryRun (0, 0, []) (cp, c)).2.1,
       (mimeFileStep dryRun (0, 0, []) (up, u)).2.2 ++
         (mimeFileStep dryRun (0, 0, []) (cp, c)).2.2) := by
  unfold cleanMimeDuplicates
  simp only [List.foldl_cons, List.foldl_nil]
  rw [mimeFileStep_add dryRun (mimeFileStep dryRun (0, 0, []) (up, u)) (cp, c)]

theorem mimeFileStep_none (dryRun : Bool) (acc : Nat × Nat × List FsOp) (path : Str) :
    mimeFileStep dryRun acc (path, none) = acc := rfl

/-! ## Lemmas: role disjointness and operation targets -/

theorem roots_disjoint (R : Roots) (hlen : R.systemRoot.length ≤ R.userRoot.length)
    (hnp : isSystemPath R R.userRoot = false) :
    ∀ q : Str, isUserPath R q = true → isSystemPath R q = false := by
  intro q hq
  cases hs : isSystemPath R q with
  | false => rfl
  | true =>
    have hu : R.userRoot <+: q := List.isPrefixOf_iff_prefix.mp hq
    have hsp : R.systemRoot <+: q := List.isPrefixOf_iff_prefix.mp hs
    have hpre : R.systemRoot <+: R.userRoot :=
      List.prefix_of_prefix_length_le hsp hu hlen
    have hb : isSystemPath R R.userRoot = true := List.isPrefixOf_iff_prefix.mpr hpre
    rw [hb] at hnp
    exact hnp

theorem wineFileOp_target (R : Roots) (e : WineEnv) (f : Str) :
    ∀ op ∈ wineFileOp R e f, op.target = childPath R.userRoot f := by
  intro op hop
  unfold wineFileOp at hop
  by_cases h : e.unlinkOk f = true
  · rw [if_pos h] at hop
    rcases List.mem_cons.mp hop with hop | hop
    · rw [hop]; rfl
    · simp at hop
  · simp [h] at hop

theorem wineDirOp_target (R : Roots) (e : WineEnv) (b : BackupEntry) :
    ∀ op ∈ wineDirOp R e b, op.target = childPath R.userRoot b.name := by
  intro op hop
  unfold wineDirOp at hop
  by_cases h : wineDirRemoved e b = true
  · rw [if_pos h] at hop
    rcases List.mem_cons.mp hop with hop | hop
    · rw [hop]; rfl
    · simp at hop
  · simp [h] at hop

theorem removeWineFiles_ops_target (R : Roots) (dryRun : Bool) (e : WineEnv) :
    ∀ op ∈ (removeWineFiles R dryRun e).2, isUserPath R op.target = true := by
  intro op hop
  cases dryRun with
  | true =>
    rw [removeWineFiles_dry] at hop
    simp at hop
  | false =>
    rw [removeWineFiles_wet] at hop
    rcases List.mem_append.mp hop with hop | hop
    · obtain ⟨f, _, hf⟩ := List.mem_flatMap.mp hop
      rw [wineFileOp_target R e f op hf]
      exact isUserPath_childPath R f
    · rcases List.mem_append.mp hop with hop | hop
      · obtain ⟨f, _, hf⟩ := List.mem_flatMap.mp hop
        rw [wineFileOp_target R e f op hf]
        exact isUserPath_childPath R f
      · obtain ⟨b, _, hb⟩ := List.mem_flatMap.mp hop
        rw [wineDirOp_target R e b op hb]
        exact isUserPath_childPath R b.name

theorem hideAll_ops_target (R : Roots) (dryRun : Bool) (writeOk : Str → Bool)
    (fs : Str → Str) (groups : List (Str × List Str)) :
    ∀ op ∈ (hideDuplicateApplications R dryRun writeOk fs groups).2,
      isUserPath R op.target = true := by
  intro op hop
  rw [hideAll_eq] at hop
  obtain ⟨g, _, hg⟩ := List.mem_flatMap.mp hop
  rw [hideGroup_eq] at hg
  obtain ⟨p, _, hp⟩ := List.mem_flatMap.mp hg
  exact hideOne_ops_target R dryRun writeOk fs g.1 p op hp

theorem mimeFileStep_ops_target (dryRun : Bool) (path : Str) (opt : Option MimeFileEnv) :
    ∀ op ∈ (mimeFileStep dryRun (0, 0, []) (path, opt)).2.2,
      op.target = path ∨ op.target = withSuffixListBak path := by
  intro op hop
  cases opt with
  | none => simp [mimeFileStep] at hop
  | some e =>
    simp only [mimeFileStep] at hop
    cases hres : (cleanMimeFileM dryRun path e).2.2 with
    | ok b =>
      rw [hres] at hop
      simp only [List.nil_append] at hop
      exact cleanMimeFileM_ops_target dryRun path e op hop
    | error err =>
      rw [hres] at hop
      simp only [List.nil_append] at hop
      exact cleanMimeFileM_ops_target dryRun path e op hop

theorem flatMap_eq_nil_of {A : Type} (l : List A) (f : A → List FsOp)
    (h : ∀ x ∈ l, f x = []) : l.flatMap f = [] :=
  List.flatMap_eq_nil_iff.mpr h

theorem cleanMimeFileM_backup_op (path : Str) (e : MimeFileEnv) (hb : e.backupOk = true) :
    FsOp.write (withSuffixListBak path) e.content ∈ (cleanMimeFileM false path e).2.1 := by
  cases hr : e.readOk <;> cases hw : e.writeOk <;> simp [cleanMimeFileM, hb, hr, hw]

/-! ## Claim theorems -/

/-- C4 (counterexample): the claim says the extractor keeps the value of
the *first* line with a recognized key and ignores later duplicates; but
on the file content `Name=A\nName=B` the extracted record's name is `B`
(each later assignment overwrites the field), not `A`. -/
theorem C4_counterexample :
    (parseDesktopFile "Name=A\nName=B".toList).name = some ['B'] ∧
    ¬((parseDesktopFile "Name=A\nName=B".toList).name = some ['A']) := by
  constructor <;> decide

/-- C4 (amended): for every launcher file, the record extractor assigns
each recognized field (`Name=`, `NoDisplay=`, `Type=`) the value from the
*last* line carrying that key in file order — every later line with the
same key overwrites the record; the field is absent when no line carries
the key. -/
theorem C4_extractor_last_wins (ls : List Str) :
    (parseLines ls).name = (ls.filterMap nameOfLine).getLast? ∧
    (parseLines ls).noDisplay = (ls.filterMap noDisplayOfLine).getLast? ∧
    (parseLines ls).entryType = (ls.filterMap typeOfLine).getLast? :=
  ⟨parseLines_name ls, parseLines_noDisplay ls, parseLines_type ls⟩

/-- C9 (counterexample): the claim inserts `NoDisplay=true` only after a
line that is *exactly* `[Desktop Entry]`, appending the header and flag
at end of file otherwise; but the code compares the *stripped* line, so
for the lines `" [Desktop Entry]\n"`, `"X=1\n"` — none of which is
exactly the header — the flag is inserted after the padded header line
rather than appended at the end. -/
theorem C9_counterexample :
    addNoDisplayLines [" [Desktop Entry]\n".toList, "X=1\n".toList] =
      [" [Desktop Entry]\n".toList, "NoDisplay=true\n".toList, "X=1\n".toList] ∧
    " [Desktop Entry]\n".toList ≠ "[Desktop Entry]".toList ∧
    " [Desktop Entry]\n".toList ≠ "[Desktop Entry]\n".toList ∧
    "X=1\n".toList ≠ "[Desktop Entry]".toList ∧
    "X=1\n".toList ≠ "[Desktop Entry]\n".toList ∧
    addNoDisplayLines [" [Desktop Entry]\n".toList, "X=1\n".toList] ≠
      [" [Desktop Entry]\n".toList, "X=1\n".toList] ++
        ["[Desktop Entry]\n".toList, "NoDisplay=true\n".toList] := by
  refine ⟨by decide, by decide, by decide, by decide, by decide, by decide⟩

/-- C9 (amended): in-place suppression removes every line whose stripped
form begins with `NoDisplay=` and inserts exactly one `NoDisplay=true`
line immediately after the first line whose *stripped* form equals
`[Desktop Entry]`; if no such line exists, `[Desktop Entry]` and
`NoDisplay=true` are appended at end of file; every other line is
preserved verbatim and in order (this is `addNoDisplaySpec`), and the
result contains exactly one `NoDisplay=` line. -/
theorem C9_suppression (lines : List Str) :
    addNoDisplayLines lines = addNoDisplaySpec lines ∧
    ((addNoDisplayLines lines).filter
      (fun l => "NoDisplay=".toList.isPrefixOf (stripStr l))).length = 1 :=
  ⟨addNoDisplaySpec_eq lines, count_noDisplay_addNoDisplayLines lines⟩

/-- C2: for every association line containing `=` and `.desktop`, the
cleaned line keeps the key (splitting the output at its first `=` yields
the original key and the cleaned value); the cleaned value's entry list
is the order-preserved first-occurrence deduplication of the input
entries, with no duplicate and no empty entry, and the cleaned value ends
with `;` iff the list is non-empty; the example line
`Key=a.desktop;b.desktop;a.desktop;;c.desktop` is rewritten to
`Key=a.desktop;b.desktop;c.desktop;`; every other line passes through
unchanged. -/
theorem C2_association_line_cleaning :
    (∀ line : Str, line.contains '=' = true → containsSub ".desktop".toList line = true →
      splitEqOnce (cleanMimeLine line) =
        ((splitEqOnce line).1, cleanValue (splitEqOnce line).2) ∧
      parseList (cleanValue (splitEqOnce line).2) =
        keepFirsts (splitOnChar ';' (splitEqOnce line).2) ∧
      (parseList (cleanValue (splitEqOnce line).2)).Nodup ∧
      [] ∉ parseList (cleanValue (splitEqOnce line).2) ∧
      (endsWithChar ';' (cleanValue (splitEqOnce line).2) = true ↔
        parseList (cleanValue (splitEqOnce line).2) ≠ [])) ∧
    cleanMimeLine "Key=a.desktop;b.desktop;a.desktop;;c.desktop".toList =
      "Key=a.desktop;b.desktop;c.desktop;".toList ∧
    (∀ line : Str, ¬(line.contains '=' = true ∧ containsSub ".desktop".toList line = true) →
      cleanMimeLine line = line) := by
  refine ⟨?_, by decide, ?_⟩
  · intro line h1 h2
    have hkey := splitEqOnce_fst_not_mem line
    have hout : cleanMimeLine line =
        (splitEqOnce line).1 ++ '=' :: cleanValue (splitEqOnce line).2 :=
      cleanMimeLine_eq_of_cond h1 h2
    have hsplit : splitEqOnce (cleanMimeLine line) =
        ((splitEqOnce line).1, cleanValue (splitEqOnce line).2) := by
      rw [hout]
      exact splitEqOnce_append _ hkey
    have hpl := parseList_cleanValue (splitEqOnce line).2
    refine ⟨hsplit, ?_, ?_, ?_, ?_⟩
    · rw [hpl, keepFirsts_eq_dedupApps]
    · rw [hpl]
      exact (dedupAppsAux_nodup_notMem [] _).1
    · rw [hpl]
      intro hmem
      exact ((dedupAppsAux_nodup_notMem [] _).2 [] hmem).1 rfl
    · rw [hpl]
      rcases cleanValue_eq (splitEqOnce line).2 with ⟨hu, he⟩ | ⟨hu, he⟩
      · rw [he, hu]
        constructor
        · intro h
          simp [endsWithChar] at h
        · intro h
          exact absurd rfl h
      · rw [he]
        constructor
        · intro _
          exact hu
        · intro _
          simp [endsWithChar]
  · intro line h
    simp only [cleanMimeLine]
    rw [if_neg (fun hc => h (Bool.and_eq_true_iff.mp hc))]

/-- C2 (witness): the general theorem applied to the concrete example
line. -/
theorem C2_association_line_cleaning_witness :
    cleanMimeLine "Key=a.desktop;b.desktop;a.desktop;;c.desktop".toList =
      "Key=a.desktop;b.desktop;c.desktop;".toList ∧
    (parseList (cleanValue
      (splitEqOnce "Key=a.desktop;b.desktop;a.desktop;;c.desktop".toList).2)).Nodup :=
  ⟨C2_association_line_cleaning.2.1,
   (C2_association_line_cleaning.1 "Key=a.desktop;b.desktop;a.desktop;;c.desktop".toList
     (by decide) (by decide)).2.2.1⟩

/-- C6: the association-file content cleaning is idempotent — a second
pass over its own output changes nothing — while every non-dry-run
invocation whose backup copy succeeds performs the backup write and
increments `backups_created` by exactly one, regardless of the content. -/
theorem C6_dedup_idempotent :
    (∀ content : Str,
      cleanMimeContent (cleanMimeContent content) = cleanMimeContent content) ∧
    (∀ (path : Str) (e : MimeFileEnv), e.backupOk = true →
      (cleanMimeFileM false path e).1 = 1 ∧
      FsOp.write (withSuffixListBak path) e.content ∈ (cleanMimeFileM false path e).2.1) :=
  ⟨cleanMimeContent_idem,
   fun path e hb => ⟨cleanMimeFileM_backup_inc path e hb, cleanMimeFileM_backup_op path e hb⟩⟩

/-- C6 (witness): idempotence and the backup increment at a concrete
file. -/
theorem C6_dedup_idempotent_witness :
    cleanMimeContent (cleanMimeContent "A=x.desktop;x.desktop;;y.desktop".toList) =
      cleanMimeContent "A=x.desktop;x.desktop;;y.desktop".toList ∧
    (cleanMimeFileM false "/home/u/.config/mimeapps.list".toList mimeEnvOkEmpty).1 = 1 :=
  ⟨C6_dedup_idempotent.1 _,
   (C6_dedup_idempotent.2 "/home/u/.config/mimeapps.list".toList mimeEnvOkEmpty (by decide)).1⟩

/-- C1: for every duplicate group whose records all lie under exactly one
of the two roots, the resolver's sort keeps exactly the first element as
the survivor and suppresses the rest (a permutation of the group of size
one less); the survivor is the lexicographically-smallest SYSTEM-role
path when the group contains a SYSTEM-role record, and otherwise the
lexicographically-smallest USER-role path. -/
theorem C1_resolver_survivor (R : Roots) (files : List Str)
    (hlen : 2 ≤ files.length)
    (hcover : ∀ p ∈ files, isSystemPath R p = true ∨ isUserPath R p = true)
    (hdisj : ∀ p ∈ files, ¬(isSystemPath R p = true ∧ isUserPath R p = true)) :
    ∃ survivor rest, sortFiles R files = survivor :: rest ∧
      (survivor :: rest).Perm files ∧ rest.length = files.length - 1 ∧
      ((∃ p ∈ files, isSystemPath R p = true) →
        isSystemPath R survivor = true ∧ survivor ∈ files ∧
        ∀ p ∈ files, isSystemPath R p = true → lexLe survivor p = true) ∧
      ((∀ p ∈ files, isSystemPath R p = false) →
        isUserPath R survivor = true ∧ survivor ∈ files ∧
        ∀ p ∈ files, lexLe survivor p = true) := by
  have hperm : (sortFiles R files).Perm files := List.perm_insertionSort _ files
  have hsorted : List.Sorted (resolverLe R) (sortFiles R files) :=
    List.sorted_insertionSort _ files
  have hne : sortFiles R files ≠ [] := by
    intro h
    have hl := hperm.length_eq
    rw [h] at hl
    simp at hl
    omega
  obtain ⟨survivor, rest, hcons⟩ := List.exists_cons_of_ne_nil hne
  rw [hcons] at hperm hsorted
  have hmin : ∀ q ∈ rest, keyLe R survivor q = true :=
    List.rel_of_sorted_cons hsorted
  have hmemf : ∀ p, p ∈ files ↔ p = survivor ∨ p ∈ rest := by
    intro p
    rw [← hperm.mem_iff, List.mem_cons]
  have hsurv : survivor ∈ files := (hmemf survivor).mpr (Or.inl rfl)
  have hrest : rest.length = files.length - 1 := by
    have hl := hperm.length_eq
    simp at hl
    omega
  refine ⟨survivor, rest, hcons, hperm, hrest, ?_, ?_⟩
  · rintro ⟨p0, hp0, hp0sys⟩
    have hp0u : isUserPath R p0 = false := by
      cases hq : isUserPath R p0 with
      | false => rfl
      | true => exact absurd ⟨hp0sys, hq⟩ (hdisj p0 hp0)
    have hsu : isUserPath R survivor = false := by
      cases hsu : isUserPath R survivor with
      | false => rfl
      | true =>
        rcases (hmemf p0).mp hp0 with h | h
        · exact absurd ⟨h ▸ hp0sys, h ▸ hsu⟩ (hdisj p0 hp0)
        · have hkey := hmin p0 h
          unfold keyLe at hkey
          simp only [hsu, hp0u] at hkey
          simp at hkey
    have hssys : isSystemPath R survivor = true := by
      rcases hcover survivor hsurv with h | h
      · exact h
      · exact absurd h (by rw [hsu]; simp)
    refine ⟨hssys, hsurv, ?_⟩
    intro p hp hpsys
    have hpu : isUserPath R p = false := by
      cases hq : isUserPath R p with
      | false => rfl
      | true => exact absurd ⟨hpsys, hq⟩ (hdisj p hp)
    rcases (hmemf p).mp hp with h | h
    · rw [h]
      exact lexLe_refl survivor
    · have hkey := hmin p h
      unfold keyLe at hkey
      simp only [hsu, hpu] at hkey
      simpa using hkey
  · intro hall
    have hsu : isUserPath R survivor = true := by
      rcases hcover survivor hsurv with h | h
      · exact absurd h (by rw [hall survivor hsurv]; simp)
      · exact h
    refine ⟨hsu, hsurv, ?_⟩
    intro p hp
    have hpu : isUserPath R p = true := by
      rcases hcover p hp with h | h
      · exact absurd h (by rw [hall p hp]; simp)
      · exact h
    rcases (hmemf p).mp hp with h | h
    · rw [h]
      exact lexLe_refl survivor
    · have hkey := hmin p h
      unfold keyLe at hkey
      simp only [hsu, hpu] at hkey
      simpa using hkey

/-- C1 (witness): on a concrete group with two SYSTEM-role records and
one USER-role record, the head of the resolver's sort is a SYSTEM-role
member of the group. -/
theorem C1_resolver_survivor_witness :
    isSystemPath stdRoots ((sortFiles stdRoots demoFiles).headI) = true ∧
    (sortFiles stdRoots demoFiles).headI ∈ demoFiles := by
  obtain ⟨s, r, hcons, hperm, hlen, hsys, huser⟩ :=
    C1_resolver_survivor stdRoots demoFiles (by decide) (by decide) (by decide)
  obtain ⟨h1, h2, h3⟩ := hsys
    ⟨"/usr/share/applications/z.desktop".toList, by decide, by decide⟩
  rw [hcons]
  simpa using ⟨h1, h2⟩

/-! ## Lemmas: dry-run versus live-run stage effects -/

theorem mimeFileStep_dry_parts (path : Str) (opt : Option MimeFileEnv) :
    (mimeFileStep true (0, 0, []) (path, opt)).2.1 = 0 ∧
    (mimeFileStep true (0, 0, []) (path, opt)).2.2 = [] := by
  cases opt with
  | none => exact ⟨rfl, rfl⟩
  | some e =>
    cases hr : e.readOk <;> simp [mimeFileStep, cleanMimeFileM, hr]

theorem mimeFileStep_dry_cleaned (path : Str) (opt : Option MimeFileEnv)
    (h : ∀ e, opt = some e → e.readOk = true) :
    (mimeFileStep true (0, 0, []) (path, opt)).1 = (if opt.isSome then 1 else 0) := by
  cases opt with
  | none => rfl
  | some e =>
    have hr := h e rfl
    simp [mimeFileStep, cleanMimeFileM, hr]

theorem mimeFileStep_wet_cleaned (path : Str) (opt : Option MimeFileEnv)
    (h : ∀ e, opt = some e → e.allOk) :
    (mimeFileStep false (0, 0, []) (path, opt)).1 = (if opt.isSome then 1 else 0) := by
  cases opt with
  | none => rfl
  | some e =>
    obtain ⟨hb, hr, hw⟩ := h e rfl
    simp [mimeFileStep, cleanMimeFileM_wet_ok path e hb hr hw]

theorem mimeFileStep_wet_backups (path : Str) (opt : Option MimeFileEnv)
    (h : ∀ e, opt = some e → e.allOk) :
    (mimeFileStep false (0, 0, []) (path, opt)).2.1 = (if opt.isSome then 1 else 0) := by
  cases opt with
  | none => rfl
  | some e =>
    obtain ⟨hb, hr, hw⟩ := h e rfl
    simp [mimeFileStep, cleanMimeFileM_wet_ok path e hb hr hw]

theorem hideGroup_dry_wet_count (R : Roots) (writeOk : Str → Bool) (fs : Str → Str)
    (appName : Str) (files : List Str) (hw : ∀ q, writeOk q = true) :
    (hideGroup R true writeOk fs appName files).1 =
      (hideGroup R false writeOk fs appName files).1 := by
  have hcongr : ∀ p ∈ (sortFiles R files).tail,
      (hideOne R true writeOk fs appName p).1 = (hideOne R false writeOk fs appName p).1 := by
    intro p _
    rw [hideOne_dry, hideOne_wet_ok R writeOk fs appName p hw]
  rw [hideGroup_eq, hideGroup_eq]
  exact congrArg List.sum (List.map_congr_left hcongr)

theorem hideAll_dry_wet_count (R : Roots) (writeOk : Str → Bool) (fs : Str → Str)
    (groups : List (Str × List Str)) (hw : ∀ q, writeOk q = true) :
    (hideDuplicateApplications R true writeOk fs groups).1 =
      (hideDuplicateApplications R false writeOk fs groups).1 := by
  rw [hideAll_eq, hideAll_eq]
  exact congrArg List.sum
    (List.map_congr_left (fun g _ => hideGroup_dry_wet_count R writeOk fs g.1 g.2 hw))

theorem hideAll_dry_ops (R : Roots) (writeOk : Str → Bool) (fs : Str → Str)
    (groups : List (Str × List Str)) :
    (hideDuplicateApplications R true writeOk fs groups).2 = [] := by
  rw [hideAll_eq]
  apply flatMap_eq_nil_of
  intro g _
  rw [hideGroup_eq]
  apply flatMap_eq_nil_of
  intro p _
  rw [hideOne_dry]

theorem removeWine_dry_wet_count (R : Roots) (e : WineEnv)
    (hu : ∀ f, e.unlinkOk f = true) (hr : ∀ d, e.rmtreeOk d = true) :
    (removeWineFiles R true e).1 = (removeWineFiles R false e).1 := by
  have hdir : ∀ b ∈ (e.backups.filter (fun b => globMatch "backup_".toList [] b.name)),
      (if wineDirRemoved e b then
        (b.contents.filter (globMatch "wine-".toList ".desktop".toList)).length else 0) =
      (if b.isDir &&
          !(b.contents.filter (globMatch "wine-".toList ".desktop".toList)).isEmpty then
        (b.contents.filter (globMatch "wine-".toList ".desktop".toList)).length else 0) := by
    intro b _
    unfold wineDirRemoved
    rw [hr b.name, Bool.and_true]
  rw [removeWineFiles_dry, removeWineFiles_wet]
  unfold wineCountSpec
  rw [List.filter_eq_self.mpr (fun a _ => hu a),
    List.filter_eq_self.mpr (fun a _ => hu a),
    ← sum_map_ite_val (wineDirRemoved e)
      (fun b => (b.contents.filter (globMatch "wine-".toList ".desktop".toList)).length)
      (e.backups.filter (fun b => globMatch "backup_".toList [] b.name)),
    List.map_congr_left hdir]

/-- C5: for every non-dry purge run, `wine_files_removed` equals the
number of successfully deleted files matching the two wine patterns in
the user root, plus, per successfully deleted `backup_*` directory, the
number of `wine-*.desktop` files it contained; failed deletions
contribute nothing and later entries are still processed (the count is a
sum over all entries). -/
theorem C5_wine_removed_count (R : Roots) (e : WineEnv) :
    (removeWineFiles R false e).1 = wineCountSpec e := by
  rw [removeWineFiles_wet]

/-- C10: a non-survivor record whose path lies under neither root is
silently skipped: the resolver performs no filesystem write for it and
does not increment `duplicates_hidden` (its contribution to the group
fold is `(0, [])`, and the group count and operations are exactly the
per-record sums over the sorted tail). -/
theorem C10_neither_role_skipped (R : Roots) (dryRun : Bool) (writeOk : Str → Bool)
    (fs : Str → Str) (appName : Str) (files : List Str) (p : Str)
    (_hp : p ∈ (sortFiles R files).tail)
    (h1 : isSystemPath R p = false) (h2 : isUserPath R p = false) :
    hideOne R dryRun writeOk fs appName p = (0, []) ∧
    (hideGroup R dryRun writeOk fs appName files).1 =
      (((sortFiles R files).tail).map
        (fun q => (hideOne R dryRun writeOk fs appName q).1)).sum ∧
    (hideGroup R dryRun writeOk fs appName files).2 =
      ((sortFiles R files).tail).flatMap
        (fun q => (hideOne R dryRun writeOk fs appName q).2) := by
  refine ⟨hideOne_neither R dryRun writeOk fs appName p h1 h2, ?_, ?_⟩
  · rw [hideGroup_eq]
  · rw [hideGroup_eq]

/-- C10 (witness): the concrete neither-role non-survivor
`/var/apps/foo.desktop` contributes no count and no operation. -/
theorem C10_neither_role_skipped_witness :
    hideOne stdRoots false (fun _ => true) (fun _ => []) "App".toList
      "/var/apps/foo.desktop".toList = (0, []) :=
  (C10_neither_role_skipped stdRoots false (fun _ => true) (fun _ => []) "App".toList
    demoNeitherFiles "/var/apps/foo.desktop".toList (by decide) (by decide) (by decide)).1

/-- C3: when the two roots are disjoint (the system root is no longer
than, and not a prefix of, the user root) and the association-file paths
and their backups lie outside the system root, no operation of a run
targets a path under the SYSTEM root; and suppressing a SYSTEM-role
record either writes exactly the four-line stub to the same filename
under the USER root or, on failure, does nothing. -/
theorem C3_system_root_untouched (dryRun : Bool) (env : RunEnv)
    (hlen : env.roots.systemRoot.length ≤ env.roots.userRoot.length)
    (hnp : isSystemPath env.roots env.roots.userRoot = false)
    (hm1 : isSystemPath env.roots env.mimeUserPath = false)
    (hm2 : isSystemPath env.roots (withSuffixListBak env.mimeUserPath) = false)
    (hm3 : isSystemPath env.roots env.mimeConfigPath = false)
    (hm4 : isSystemPath env.roots (withSuffixListBak env.mimeConfigPath) = false) :
    (∀ op ∈ (runModel dryRun env).2, isSystemPath env.roots op.target = false) ∧
    (∀ appName p : Str, isSystemPath env.roots p = true →
      hideOne env.roots false env.hideOk env.fs appName p =
        (1, [FsOp.write (childPath env.roots.userRoot (fileName p))
             (overrideContent appName)]) ∨
      hideOne env.roots false env.hideOk env.fs appName p = (0, [])) := by
  have hdisj := roots_disjoint env.roots hlen hnp
  constructor
  · intro op hop
    simp only [runModel] at hop
    rcases List.mem_append.mp hop with hop | hop
    · rcases List.mem_append.mp hop with hop | hop
      · exact hdisj _ (removeWineFiles_ops_target env.roots dryRun env.wine op hop)
      · exact hdisj _
          (hideAll_ops_target env.roots dryRun env.hideOk env.fs env.groups op hop)
    · rw [cleanMimeDuplicates_eq] at hop
      rcases List.mem_append.mp hop with hop | hop
      · rcases mimeFileStep_ops_target dryRun env.mimeUserPath env.mimeUser op hop with
          h | h
        · rw [h]; exact hm1
        · rw [h]; exact hm2
      · rcases mimeFileStep_ops_target dryRun env.mimeConfigPath env.mimeConfig op hop with
          h | h
        · rw [h]; exact hm3
        · rw [h]; exact hm4
  · intro appName p hp
    exact hideOne_system_shape env.roots env.hideOk env.fs appName p hp

/-- C3 (witness): on the concrete initial state `envC3` every performed
operation targets a path outside the system root. -/
theorem C3_system_root_untouched_witness :
    ((runModel false envC3).2.all
      (fun op => decide (isSystemPath stdRoots op.target = false))) = true :=
  List.all_eq_true.mpr (fun op hop => decide_eq_true
    ((C3_system_root_untouched false envC3 (by decide) (by decide) (by decide)
      (by decide) (by decide) (by decide)).1 op hop))

/-- C8: an I/O failure anywhere in the backup-read-clean-rewrite sequence
of one association file surfaces as the typed `BackupError` outcome to
the caller; the failing file is not counted as cleaned, and the remaining
association file is still processed exactly as it would have been. -/
theorem C8_mime_error_surfaced (p1 p2 : Str) (e1 e2 : MimeFileEnv)
    (hfail : e1.backupOk = false ∨ e1.readOk = false ∨ e1.writeOk = false) :
    (cleanMimeFileM false p1 e1).2.2 = Except.error CleanerErr.backupFailure ∧
    (cleanMimeDuplicates false p1 p2 (some e1) (some e2)).1 =
      (cleanMimeDuplicates false p1 p2 none (some e2)).1 := by
  have herr := cleanMimeFileM_err p1 e1 hfail
  refine ⟨herr, ?_⟩
  rw [cleanMimeDuplicates_eq, cleanMimeDuplicates_eq, mimeFileStep_none]
  have h0 : (mimeFileStep false (0, 0, []) (p1, some e1)).1 = 0 := by
    simp [mimeFileStep, herr]
  rw [h0]

/-- C8 (witness): a failing backup on the user association file yields
the typed error at a concrete input. -/
theorem C8_mime_error_surfaced_witness :
    (cleanMimeFileM false "/home/u/.local/share/applications/mimeapps.list".toList
      ⟨[], false, true, true⟩).2.2 = Except.error CleanerErr.backupFailure :=
  (C8_mime_error_surfaced "/home/u/.local/share/applications/mimeapps.list".toList
    "/home/u/.config/mimeapps.list".toList ⟨[], false, true, true⟩ mimeEnvOkEmpty
    (Or.inl rfl)).1

theorem envC7_allOk : RunEnv.allOk envC7 := by
  refine ⟨fun _ => rfl, fun _ => rfl, fun _ => rfl, ?_, ?_⟩
  · intro e he
    have he2 : some mimeEnvOkEmpty = some e := he
    cases he2
    exact ⟨rfl, rfl, rfl⟩
  · intro e he
    exact Option.noConfusion he

/-- C7 (counterexample): the claim says every counter of a dry run equals
the corresponding counter of a failure-free live run from the same state;
but on a state with one existing association file and no failing
operation, the dry run reports `backups_created = 0` while the live run
reports `1` (the backup counter is only incremented when the backup is
actually taken). -/
theorem C7_counterexample :
    RunEnv.allOk envC7 ∧ (runModel true envC7).1 ≠ (runModel false envC7).1 := by
  refine ⟨envC7_allOk, by decide⟩

/-- C7 (amended): a dry run performs no filesystem operation, and its
`wine_files_removed`, `duplicates_hidden` and `mime_duplicates_cleaned`
counters equal those of a failure-free live run from the same state; the
exception is `backups_created`, which stays `0` in a dry run while the
live run counts one backup per existing association file. -/
theorem C7_dry_run_deviation (env : RunEnv) (h : env.allOk) :
    (runModel true env).2 = [] ∧
    (runModel true env).1.wineFilesRemoved = (runModel false env).1.wineFilesRemoved ∧
    (runModel true env).1.duplicatesHidden = (runModel false env).1.duplicatesHidden ∧
    (runModel true env).1.mimeDuplicatesCleaned =
      (runModel false env).1.mimeDuplicatesCleaned ∧
    (runModel true env).1.backupsCreated = 0 ∧
    (runModel false env).1.backupsCreated =
      (if env.mimeUser.isSome then 1 else 0) +
        (if env.mimeConfig.isSome then 1 else 0) := by
  obtain ⟨hu, hr, hw, hmu, hmc⟩ := h
  have hmur : ∀ e, env.mimeUser = some e → e.readOk = true := fun e he => (hmu e he).2.1
  have hmcr : ∀ e, env.mimeConfig = some e → e.readOk = true := fun e he => (hmc e he).2.1
  refine ⟨?_, ?_, ?_, ?_, ?_, ?_⟩
  · simp only [runModel]
    rw [removeWineFiles_dry, hideAll_dry_ops, cleanMimeDuplicates_eq,
      (mimeFileStep_dry_parts env.mimeUserPath env.mimeUser).2,
      (mimeFileStep_dry_parts env.mimeConfigPath env.mimeConfig).2]
    simp
  · simp only [runModel]
    exact removeWine_dry_wet_count env.roots env.wine hu hr
  · simp only [runModel]
    exact hideAll_dry_wet_count env.roots env.hideOk env.fs env.groups hw
  · simp only [runModel]
    rw [cleanMimeDuplicates_eq, cleanMimeDuplicates_eq,
      mimeFileStep_dry_cleaned env.mimeUserPath env.mimeUser hmur,
      mimeFileStep_dry_cleaned env.mimeConfigPath env.mimeConfig hmcr,
      mimeFileStep_wet_cleaned env.mimeUserPath env.mimeUser hmu,
      mimeFileStep_wet_cleaned env.mimeConfigPath env.mimeConfig hmc]
  · simp only [runModel]
    rw [cleanMimeDuplicates_eq,
      (mimeFileStep_dry_parts env.mimeUserPath env.mimeUser).1,
      (mimeFileStep_dry_parts env.mimeConfigPath env.mimeConfig).1]
  · simp only [runModel]
    rw [cleanMimeDuplicates_eq,
      mimeFileStep_wet_backups env.mimeUserPath env.mimeUser hmu,
      mimeFileStep_wet_backups env.mimeConfigPath env.mimeConfig hmc]

/-- C7 (witness): the amended dry-run facts at the concrete state
`envC7`. -/
theorem C7_dry_run_deviation_witness :
    (runModel true envC7).2 = [] ∧ (runModel true envC7).1.backupsCreated = 0 := by
  obtain ⟨h1, _, _, _, h5, _⟩ := C7_dry_run_deviation envC7 envC7_allOk
  exact ⟨h1, h5⟩
